import Mathlib

/-!
Verification of the pvxs `SockAddr` address subsystem (`src/util.cpp`).

The development shallowly embeds the address value type and its parsing,
formatting and family operations.  Machine integers are modelled as `Nat`
with explicit `% 2^16` where the C code truncates to `unsigned short`.
Strings are modelled as `List Char`.  Fallible operations return `Res`
(an `Except`-like sum with a decidable equality), with error kinds taken
from the specification's error taxonomy.
-/

set_option maxHeartbeats 1000000

/- ### Definitions -/

/-- Error kinds of the address subsystem (spec section 7): `invalidFormat`
from `std::runtime_error` in `SockAddr::setAddress` and the port parser,
`unsupportedFamily` from `std::invalid_argument` in the constructors,
`invalidState` from `std::logic_error` in `SockAddr::setPort`, and
`invalidFamily` from `std::logic_error` in `SockAddr::map4to6`. -/
inductive Err : Type where
  | invalidFormat : Err
  | unsupportedFamily : Err
  | invalidState : Err
  | invalidFamily : Err
  deriving DecidableEq, Repr

/-- Result type of fallible operations (C++ exceptions become `.error`). -/
inductive Res (α : Type) : Type where
  | ok : α → Res α
  | error : Err → Res α
  deriving DecidableEq, Repr

/- ### Character classes (C locale, as used by `strtoull` / `inet_pton`) -/

/-- Decimal digit test, `'0'..'9'`. -/
def isDecDigitC (c : Char) : Bool := 48 ≤ c.toNat && c.toNat ≤ 57

/-- Hexadecimal digit test, `'0'..'9' | 'a'..'f' | 'A'..'F'`. -/
def isHexDigitC (c : Char) : Bool :=
  (48 ≤ c.toNat && c.toNat ≤ 57) || (97 ≤ c.toNat && c.toNat ≤ 102) ||
  (65 ≤ c.toNat && c.toNat ≤ 70)

/-- Octal digit test, `'0'..'7'`. -/
def isOctDigitC (c : Char) : Bool := 48 ≤ c.toNat && c.toNat ≤ 55

/-- White-space test of `isspace` in the C locale. -/
def isSpaceC (c : Char) : Bool :=
  c.toNat = 32 || c.toNat = 9 || c.toNat = 10 || c.toNat = 11 || c.toNat = 12 || c.toNat = 13

/-- Numeric value of a decimal digit character. -/
def decDigitVal (c : Char) : Nat := c.toNat - 48

/-- Numeric value of a hexadecimal digit character (either case). -/
def hexDigitVal (c : Char) : Nat :=
  if c.toNat ≤ 57 then c.toNat - 48
  else if 97 ≤ c.toNat then c.toNat - 87
  else c.toNat - 55

/-- Value of a most-significant-first decimal digit string. -/
def decVal (l : List Char) : Nat := l.foldl (fun a c => a * 10 + decDigitVal c) 0

/-- Value of a most-significant-first hexadecimal digit string. -/
def hexVal (l : List Char) : Nat := l.foldl (fun a c => a * 16 + hexDigitVal c) 0

/-- Value of a most-significant-first octal digit string. -/
def octVal (l : List Char) : Nat := l.foldl (fun a c => a * 8 + decDigitVal c) 0

/- ### Rendering numbers (decimal for `operator<<`, lower-case hex for ntop6) -/

/-- Decimal digits with explicit fuel (structural recursion, so the kernel
can evaluate it); `decRevAux f n` is correct whenever `n ≤ f`. -/
def decRevAux : Nat → Nat → List Char
  | _, 0 => []
  | 0, _ + 1 => []
  | f + 1, n + 1 => Nat.digitChar ((n + 1) % 10) :: decRevAux f ((n + 1) / 10)

/-- Decimal digits of `n`, least significant first; empty for `0`. -/
def decRev (n : Nat) : List Char := decRevAux n n

/-- Hexadecimal digits with explicit fuel (structural recursion). -/
def hexRevAux : Nat → Nat → List Char
  | _, 0 => []
  | 0, _ + 1 => []
  | f + 1, n + 1 => Nat.digitChar ((n + 1) % 16) :: hexRevAux f ((n + 1) / 16)

/-- Hexadecimal digits of `n`, least significant first; empty for `0`. -/
def hexRev (n : Nat) : List Char := hexRevAux n n

/-- Decimal rendering of `n`, as produced by `std::ostream` for unsigned values. -/
def decChars (n : Nat) : List Char := if n = 0 then ['0'] else (decRev n).reverse

/-- Lower-case hexadecimal rendering of `n` without leading zeros. -/
def hexChars (n : Nat) : List Char := if n = 0 then ['0'] else (hexRev n).reverse

/- ### Splitting and joining character lists -/

/-- Splits a character list on a separator; `"a::b"` on `':'` gives `["a","","b"]`. -/
def splitOnC (sep : Char) : List Char → List (List Char)
  | [] => [[]]
  | c :: t =>
    if c = sep then [] :: splitOnC sep t
    else
      match splitOnC sep t with
      | [] => [[c]]
      | g :: gs => (c :: g) :: gs

/-- Joins chunks with a single separator character between adjacent chunks. -/
def joinSep (sep : Char) : List (List Char) → List Char
  | [] => []
  | [g] => g
  | g :: g2 :: gs => g ++ sep :: joinSep sep (g2 :: gs)

/- ### Double-colon handling for the IPv6 presentation form -/

/-- Checks that no two adjacent characters are both `':'`. -/
def noDC : List Char → Bool
  | c1 :: c2 :: t => if c1 = ':' ∧ c2 = ':' then false else noDC (c2 :: t)
  | _ => true

/-- Finds the first occurrence of `"::"`, returning the text before and after it. -/
def findDC : List Char → Option (List Char × List Char)
  | [] => none
  | [_] => none
  | c1 :: c2 :: t =>
    if c1 = ':' ∧ c2 = ':' then some ([], t)
    else (findDC (c2 :: t)).map (fun p => (c1 :: p.1, p.2))

/- ### Index of the first/last occurrence of a character (`strchr` / `strrchr`) -/

/-- Index of the first occurrence of `c`, as computed by `strchr`. -/
def idxOfFirst (c : Char) : List Char → Option Nat
  | [] => none
  | x :: t => if x = c then some 0 else (idxOfFirst c t).map (· + 1)

/-- Index of the last occurrence of `c`, as computed by `strrchr`. -/
def idxOfLast (c : Char) : List Char → Option Nat
  | [] => none
  | x :: t =>
    match idxOfLast c t with
    | some i => some (i + 1)
    | none => if x = c then some 0 else none

/- ### IPv6 binary form: 16 bytes, viewed as 8 big-endian 16-bit words -/

/-- Groups a byte list into big-endian 16-bit words (`s6_addr` to group view). -/
def wordsFromBytes : List Nat → List Nat
  | b0 :: b1 :: t => (b0 * 256 + b1) :: wordsFromBytes t
  | _ => []

/-- Splits big-endian 16-bit words back into bytes. -/
def bytesFromWords : List Nat → List Nat
  | [] => []
  | w :: t => w / 256 :: w % 256 :: bytesFromWords t

/- ### Leading zero-run computation for `::` compression -/

/-- Length of the leading run of zero words. -/
def zrun : List Nat → Nat
  | 0 :: t => zrun t + 1
  | _ => 0

/-- First longest run (of length at least 2) of zero words, for `::` compression. -/
def bestRun (ws : List Nat) : Option (Nat × Nat) :=
  (List.range ws.length).foldl
    (fun acc i =>
      match acc with
      | none => if 2 ≤ zrun (ws.drop i) then some (i, zrun (ws.drop i)) else none
      | some b => if b.2 < zrun (ws.drop i) then some (i, zrun (ws.drop i)) else some b)
    none

/- ### External address converters (spec section 6: consumed external services) -/

/-- Modelled from the spec: `evutil_inet_ntop` for `AF_INET6` (the external
presentation converter, not part of this repository).  Produces the canonical
colon-hex presentation form: 8 lower-case hexadecimal groups with the first
longest run of two or more zero groups compressed to `::`.  The optional
embedded-IPv4 mixed notation is not produced.  Total: the caller's buffer of
`INET6_ADDRSTRLEN+1` bytes always suffices for this form, so conversion
never fails. -/
def inet_ntop6 (bytes : List Nat) : List Char :=
  match bestRun (wordsFromBytes bytes) with
  | none => joinSep ':' ((wordsFromBytes bytes).map hexChars)
  | some (b, l) =>
    joinSep ':' (((wordsFromBytes bytes).take b).map hexChars) ++ ':' :: ':' ::
      joinSep ':' (((wordsFromBytes bytes).drop (b + l)).map hexChars)

/-- Value of one colon-hex group: nonempty, all hex digits, value below 2^16. -/
def hexGroupVal (g : List Char) : Option Nat :=
  if g ≠ [] ∧ g.all isHexDigitC = true ∧ hexVal g < 65536 then some (hexVal g) else none

/-- Groups on one side of a `::`: none when the side is empty. -/
def sideGroups (l : List Char) : List (List Char) :=
  if l = [] then [] else splitOnC ':' l

/-- Maps a fallible function over a list, failing if any element fails. -/
def mapMOpt {α β : Type} (f : α → Option β) : List α → Option (List β)
  | [] => some []
  | a :: t =>
    match f a, mapMOpt f t with
    | some b, some bs => some (b :: bs)
    | _, _ => none

/-- Modelled from the spec: `evutil_inet_pton` for `AF_INET6` (the external
presentation converter, not part of this repository).  Accepts the standard
colon-hex presentation form — eight groups of hex digits, or fewer with a
single `::` standing for the omitted zero groups — and yields the 16 address
bytes.  The embedded-IPv4 mixed notation is not modelled. -/
def inet_pton6 (s : List Char) : Option (List Nat) :=
  match findDC s with
  | some (l, r) =>
    match mapMOpt hexGroupVal (sideGroups l), mapMOpt hexGroupVal (sideGroups r) with
    | some lws, some rws =>
      if lws.length + rws.length ≤ 7 then
        some (bytesFromWords (lws ++ List.replicate (8 - lws.length - rws.length) 0 ++ rws))
      else none
    | _, _ => none
  | none =>
    match mapMOpt hexGroupVal (splitOnC ':' s) with
    | some ws => if ws.length = 8 then some (bytesFromWords ws) else none
    | none => none

/-- Value of one dotted-quad octet: 1..3 decimal digits, no leading zero,
value below 256. -/
def octetVal (g : List Char) : Option Nat :=
  match g with
  | [] => none
  | c :: r =>
    if c = '0' ∧ r ≠ [] then none
    else if (c :: r).all isDecDigitC = true ∧ decVal (c :: r) ≤ 255 then
      some (decVal (c :: r))
    else none

/-- Modelled from the spec: `evutil_inet_pton` for `AF_INET` (the external
presentation converter, not part of this repository).  Accepts the standard
dotted-quad presentation form: four decimal octets 0..255, leading zeros
rejected.  Yields the 4 address bytes in network order. -/
def inet_pton4 (s : List Char) : Option (List Nat) :=
  match splitOnC '.' s with
  | [p0, p1, p2, p3] =>
    match octetVal p0, octetVal p1, octetVal p2, octetVal p3 with
    | some b0, some b1, some b2, some b3 => some [b0, b1, b2, b3]
    | _, _, _, _ => none
  | _ => none

/-- Modelled from the spec: `evutil_inet_ntop` for `AF_INET` (the external
presentation converter, not part of this repository).  Produces the canonical
dotted-quad text; total, never fails for a 4-byte address. -/
def inet_ntop4 (bytes : List Nat) : List Char :=
  match bytes with
  | [b0, b1, b2, b3] => joinSep '.' [decChars b0, decChars b1, decChars b2, decChars b3]
  | _ => []

/- ### The strict string-to-integer port parser (`parseTo<uint64_t>`) -/

/-- Digit scan of `strtoull` with base argument 0 (as called by
`parseTo<uint64_t>`, src/util.cpp:609): a `0x`/`0X` prefix selects
hexadecimal, a bare leading `0` selects octal, anything else decimal.
Returns the parsed value and the unconsumed remainder, or `none` when no
digit sequence could be parsed.  A `0x` prefix with no following hex digit
consumes just the `0`. -/
def scanNumBase0 : List Char → Option (Nat × List Char)
  | [] => none
  | c0 :: r0 =>
    if c0 = '0' then
      match r0 with
      | [] => some (0, [])
      | c :: r =>
        if c = 'x' ∨ c = 'X' then
          if (r.takeWhile isHexDigitC) = [] then some (0, c :: r)
          else some (hexVal (r.takeWhile isHexDigitC), r.dropWhile isHexDigitC)
        else
          some (octVal ((c :: r).takeWhile isOctDigitC), (c :: r).dropWhile isOctDigitC)
    else
      if ((c0 :: r0).takeWhile isDecDigitC) = [] then none
      else some (decVal ((c0 :: r0).takeWhile isDecDigitC), (c0 :: r0).dropWhile isDecDigitC)

/-- Completion of `parseTo<uint64_t>` after the digit scan: reject values
that do not fit in 64 bits (`std::out_of_range` from `stoull`), then skip
trailing white-space and reject any further characters
(src/util.cpp:615-617).  A leading `-` makes `strtoull` negate the value
modulo 2^64. -/
def finishNum (neg : Bool) (r : Option (Nat × List Char)) : Option Nat :=
  match r with
  | none => none
  | some (v, rest) =>
    if 2 ^ 64 ≤ v then none
    else if rest.dropWhile isSpaceC = [] then
      some (if neg then (2 ^ 64 - v) % 2 ^ 64 else v)
    else none

/-- The strict integer parser `parseTo<uint64_t>` (src/util.cpp:604-619):
`std::stoull(s, &idx, 0)` — optional white-space, optional sign, base-0
numeral — followed by a check that only white-space follows the numeral. -/
def parseTo_u64 (s : List Char) : Option Nat :=
  match s.dropWhile isSpaceC with
  | [] => none
  | c :: t1 =>
    if c = '-' then finishNum true (scanNumBase0 t1)
    else if c = '+' then finishNum false (scanNumBase0 t1)
    else finishNum false (scanNumBase0 (c :: t1))

/- ### The address value type and its family operations -/

/-- Address family tag `AF_UNSPEC`. -/
abbrev AF_UNSPEC : Nat := 0

/-- Address family tag `AF_INET` (Linux value). -/
abbrev AF_INET : Nat := 2

/-- Address family tag `AF_INET6` (Linux value). -/
abbrev AF_INET6 : Nat := 10

/-- The address value (spec section 3).  The C storage is the union
`SockAddr::store` declared in the repository's private header (not under
`src/`); following the spec's data model it is replaced by an explicit
record: `family` is the `sa_family` tag, `addr4` the 4 bytes of
`sin_addr.s_addr` in network order, `addr6` the 16 bytes of
`sin6_addr.s6_addr`, `port` the 16-bit port in host order (`ntohs` of the
stored field), and `scope` the `sin6_scope_id`.  Fields of the inactive
family stay zeroed, as the zero-initialising constructors of the source
leave them. -/
structure SockAddr where
  family : Nat
  addr4 : List Nat
  addr6 : List Nat
  port : Nat
  scope : Nat
  deriving DecidableEq, Repr

/-- A zero-initialised value (`SockAddr temp;` — `store{}`, family `AF_UNSPEC`). -/
def SockAddr.unspec : SockAddr :=
  ⟨AF_UNSPEC, List.replicate 4 0, List.replicate 16 0, 0, 0⟩

/-- Constructor `SockAddr::SockAddr(int af)` (util.cpp:260-270): zeroes the
storage, sets the family, and throws `std::invalid_argument` unless the
family is `AF_INET`, `AF_INET6` or `AF_UNSPEC`. -/
def SockAddr.ofFamily (af : Nat) : Res SockAddr :=
  if af = AF_INET ∨ af = AF_INET6 ∨ af = AF_UNSPEC then
    .ok { SockAddr.unspec with family := af }
  else .error .unsupportedFamily

/-- Accessor `SockAddr::port()` (util.cpp:303-312): the stored port for the
internet families, 0 otherwise. -/
def SockAddr.getPort (a : SockAddr) : Nat :=
  if a.family = AF_INET ∨ a.family = AF_INET6 then a.port else 0

/-- Mutator `SockAddr::setPort(unsigned short)` (util.cpp:314-324): stores
the port for the internet families and throws `std::logic_error`
(`InvalidState`) otherwise.  The `% 65536` models the conversion of the
argument to `unsigned short` at the call boundary. -/
def SockAddr.setPort (a : SockAddr) (p : Nat) : Res SockAddr :=
  if a.family = AF_INET ∨ a.family = AF_INET6 then
    .ok { a with port := p % 65536 }
  else .error .invalidState

/-- Predicate `SockAddr::isAny()` (util.cpp:416-425). -/
def SockAddr.isAny (a : SockAddr) : Bool :=
  if a.family = AF_INET then a.addr4 = [0, 0, 0, 0]
  else if a.family = AF_INET6 then a.addr6 = List.replicate 16 0
  else false

/-- Predicate `SockAddr::isLO()` (util.cpp:427-436): `127.0.0.1` for IPv4,
`::1` for IPv6. -/
def SockAddr.isLO (a : SockAddr) : Bool :=
  if a.family = AF_INET then a.addr4 = [127, 0, 0, 1]
  else if a.family = AF_INET6 then a.addr6 = List.replicate 15 0 ++ [1]
  else false

/-- Transform `SockAddr::map4to6()` (util.cpp:449-468): an IPv4 value maps to
the IPv4-mapped-IPv6 value built in a zeroed result — bytes 10 and 11 set to
`0xff`, bytes 12..15 copied from `sin_addr` — with the raw port bits copied
and scope 0; an IPv6 value is returned unchanged; anything else throws
`std::logic_error` (`InvalidFamily`). -/
def SockAddr.map4to6 (a : SockAddr) : Res SockAddr :=
  if a.family = AF_INET then
    .ok { family := AF_INET6, addr4 := List.replicate 4 0,
          addr6 := List.replicate 10 0 ++ [255, 255] ++ a.addr4,
          port := a.port, scope := 0 }
  else if a.family = AF_INET6 then .ok a
  else .error .invalidFamily

/-- Constructor `SockAddr::any(int, unsigned)` (util.cpp:477-495): the
all-zeroes address of the requested family with the given port; throws
`std::invalid_argument` (`UnsupportedFamily`) for any other family,
including `AF_UNSPEC` (which passes the inner constructor but hits the
`default:` branch of the switch). -/
def SockAddr.any (af : Nat) (port : Nat) : Res SockAddr :=
  match SockAddr.ofFamily af with
  | .error e => .error e
  | .ok ret =>
    if af = AF_INET then .ok { ret with addr4 := [0, 0, 0, 0], port := port % 65536 }
    else if af = AF_INET6 then
      .ok { ret with addr6 := List.replicate 16 0, port := port % 65536 }
    else .error .unsupportedFamily

/-- Constructor `SockAddr::loopback(int, unsigned)` (util.cpp:497-515):
`127.0.0.1` or `::1` with the given port; otherwise as `any`. -/
def SockAddr.loopback (af : Nat) (port : Nat) : Res SockAddr :=
  match SockAddr.ofFamily af with
  | .error e => .error e
  | .ok ret =>
    if af = AF_INET then .ok { ret with addr4 := [127, 0, 0, 1], port := port % 65536 }
    else if af = AF_INET6 then
      .ok { ret with addr6 := List.replicate 15 0 ++ [1], port := port % 65536 }
    else .error .unsupportedFamily

/- ### The parser: `SockAddr::setAddress` (util.cpp:326-414) -/

/-- Size of the `scratch` buffer, `INET6_ADDRSTRLEN+1` (util.cpp:349). -/
abbrev scratchLen : Nat := 47

/-- Port text of the bracket branch (util.cpp:394-397): the text after the
last colon when that colon lies strictly after the closing bracket,
otherwise no port text. -/
def bracketPortText (name : List Char) (cb : Nat) : Option Nat → Option (List Char)
  | some lc => if cb < lc then some (name.drop (lc + 1)) else none
  | none => none

/-- Bracket branch of `SockAddr::setAddress` (util.cpp:384-399): length-check
`closeb-openb-1u` against the scratch buffer (`cb ≤ ob` capturing the
`size_t` wrap-around, see `splitAddrPort`), then the bracket contents as
address text. -/
def bracketBranch (name : List Char) (ob cb : Nat) (lastc : Option Nat) :
    Res (Nat × List Char × Option (List Char)) :=
  if cb ≤ ob then .error .invalidFormat
  else if scratchLen ≤ cb - ob - 1 then .error .invalidFormat
  else .ok (AF_INET6, (name.drop (ob + 1)).take (cb - ob - 1), bracketPortText name cb lastc)

/-- Disambiguation stage of `SockAddr::setAddress` (util.cpp:339-403): from
the positions of the first and last `':'` (`strchr`/`strrchr`), the first
`'['` and the last `']'`, decide the family, the address text and the
optional port text, or fail (`InvalidFormat`).  The copies into `scratch`
become `take`/`drop`; their `addrlen >= sizeof(scratch)` guards are kept.
When the last `']'` precedes the first `'['`, the C computation
`closeb-openb-1u` wraps around to a huge `size_t`, which the guard then
rejects; the `cb ≤ ob` test models exactly that outcome. -/
def splitAddrPort (name : List Char) : Res (Nat × List Char × Option (List Char)) :=
  let firstc := idxOfFirst ':' name
  let lastc := idxOfLast ':' name
  let openb := idxOfFirst '[' name
  let closeb := idxOfLast ']' name
  if (openb.isNone ≠ closeb.isNone) then .error .invalidFormat
  else if firstc = none ∧ openb = none then
    .ok (AF_INET, name, none)
  else if firstc ≠ none ∧ firstc = lastc ∧ openb = none then
    match firstc with
    | some i =>
      if scratchLen ≤ i then .error .invalidFormat
      else .ok (AF_INET, name.take i, some (name.drop (i + 1)))
    | none => .error .invalidFormat
  else if firstc ≠ none ∧ firstc ≠ lastc ∧ openb = none then
    .ok (AF_INET6, name, none)
  else
    match openb, closeb with
    | some ob, some cb => bracketBranch name ob cb lastc
    | _, _ => .error .invalidFormat

/-- Conversion stage of `SockAddr::setAddress` (util.cpp:405-413): the
address text goes to `evutil_inet_pton` for the already-chosen family,
writing into the zero-initialised `temp`; failure is `InvalidFormat`.  Then
the port: parsed port text (via `parseTo<uint64_t>`, truncated to
`unsigned short` by `setPort`'s parameter) or the caller's default. -/
def finishAddr (fam : Nat) (addrTxt : List Char) (portTxt : Option (List Char))
    (defport : Nat) : Res SockAddr :=
  match
    (if fam = AF_INET then
      (inet_pton4 addrTxt).map
        (fun bs => { SockAddr.unspec with family := AF_INET, addr4 := bs })
    else if fam = AF_INET6 then
      (inet_pton6 addrTxt).map
        (fun bs => { SockAddr.unspec with family := AF_INET6, addr6 := bs })
    else none) with
  | none => .error .invalidFormat
  | some temp =>
    match portTxt with
    | some t =>
      match parseTo_u64 t with
      | none => .error .invalidFormat
      | some v => temp.setPort v
    | none => temp.setPort defport

/-- Parser `SockAddr::setAddress(const char*, unsigned short)`
(util.cpp:326-414), as the function from the input text and the default
port to the assigned value (`(*this) = temp`). -/
def parseAddress (name : List Char) (defport : Nat) : Res SockAddr :=
  match splitAddrPort name with
  | .error e => .error e
  | .ok (fam, addrTxt, portTxt) => finishAddr fam addrTxt portTxt defport

/- ### The formatter: `operator<<(std::ostream&, const SockAddr&)` (util.cpp:517-556) -/

/-- The `AF_INET` branch (util.cpp:520-531).  `convRes` is the result of
`evutil_inet_ntop` writing into the stack buffer `buf`; `buf0` is the
buffer's prior (indeterminate) contents.  On failure the code streams
`"<???>"` and then still streams `buf` — the `strm<<buf` sits outside the
`if`/`else` — so the unrenderable case appends the indeterminate bytes. -/
def streamInet (convRes : Option (List Char)) (buf0 : List Char) (port : Nat) : List Char :=
  (match convRes with
   | some txt => txt
   | none => "<???>".data ++ buf0) ++
  (if port ≠ 0 then ':' :: decChars port else [])

/-- The `AF_INET6` branch (util.cpp:533-547): brackets around the converted
text (or `"<???>"` alone on converter failure), then `%scope` when the scope
id is non-zero, then `:port` when the port is non-zero. -/
def streamInet6 (convRes : Option (List Char)) (scope port : Nat) : List Char :=
  (match convRes with
   | some txt => '[' :: txt ++ [']']
   | none => "<???>".data) ++
  (if scope ≠ 0 then '%' :: decChars scope else []) ++
  (if port ≠ 0 then ':' :: decChars port else [])

/-- Formatter `operator<<` / `SockAddr::tostring()` (util.cpp:470-475,
517-556).  The external converter `evutil_inet_ntop` is total for the
4- and 16-byte addresses given here (the buffers suffice), so its result is
always `some`; the prior buffer contents passed to the dead failure branch
are arbitrary and chosen empty. -/
def SockAddr.tostring (a : SockAddr) : List Char :=
  if a.family = AF_INET then streamInet (some (inet_ntop4 a.addr4)) [] a.port
  else if a.family = AF_INET6 then streamInet6 (some (inet_ntop6 a.addr6)) a.scope a.port
  else if a.family = AF_UNSPEC then "<>".data
  else "<???>".data

/-- Well-formed storage: the byte lists have their native sizes with byte
values, and the port fits in 16 bits.  Every value built by this file's
constructors satisfies this. -/
def SockAddr.wf (a : SockAddr) : Prop :=
  a.addr4.length = 4 ∧ (∀ x ∈ a.addr4, x < 256) ∧
  a.addr6.length = 16 ∧ (∀ x ∈ a.addr6, x < 256) ∧ a.port < 65536

/-- The Formatter contract as the specification words it (spec section 4.2,
claim C7), written independently of the code's streaming structure: dotted
quad with `:port` only if the port is non-zero; bracketed colon-hex with
`%scope` then `:port` outside the brackets; `<>` for `Unspecified`; `<???>`
for any other family tag. -/
def tostringSpec (a : SockAddr) : List Char :=
  if a.family = AF_INET then
    inet_ntop4 a.addr4 ++ (if a.port ≠ 0 then ':' :: decChars a.port else [])
  else if a.family = AF_INET6 then
    '[' :: inet_ntop6 a.addr6 ++ [']'] ++
      (if a.scope ≠ 0 then '%' :: decChars a.scope else []) ++
      (if a.port ≠ 0 then ':' :: decChars a.port else [])
  else if a.family = AF_UNSPEC then "<>".data
  else "<???>".data

/- ### Theorems -/

theorem decRevAux_fuel : ∀ n f g : Nat, n ≤ f → n ≤ g →
    decRevAux f n = decRevAux g n := by
  intro n
  induction n using Nat.strong_induction_on with
  | _ n ih =>
    intro f g hf hg
    match n, f, g, hf, hg with
    | 0, f, g, _, _ =>
      cases f <;> cases g <;> rfl
    | m + 1, f + 1, g + 1, hf, hg =>
      rw [decRevAux, decRevAux]
      have hq : (m + 1) / 10 < m + 1 := Nat.div_lt_self (Nat.succ_pos m) (by norm_num)
      rw [ih ((m + 1) / 10) hq f g (by omega) (by omega)]

theorem hexRevAux_fuel : ∀ n f g : Nat, n ≤ f → n ≤ g →
    hexRevAux f n = hexRevAux g n := by
  intro n
  induction n using Nat.strong_induction_on with
  | _ n ih =>
    intro f g hf hg
    match n, f, g, hf, hg with
    | 0, f, g, _, _ =>
      cases f <;> cases g <;> rfl
    | m + 1, f + 1, g + 1, hf, hg =>
      rw [hexRevAux, hexRevAux]
      have hq : (m + 1) / 16 < m + 1 := Nat.div_lt_self (Nat.succ_pos m) (by norm_num)
      rw [ih ((m + 1) / 16) hq f g (by omega) (by omega)]

theorem decRev_zero : decRev 0 = [] := rfl

theorem decRev_succ (m : Nat) :
    decRev (m + 1) = Nat.digitChar ((m + 1) % 10) :: decRev ((m + 1) / 10) := by
  unfold decRev
  rw [decRevAux]
  congr 1
  exact decRevAux_fuel ((m + 1) / 10) m ((m + 1) / 10)
    (by have := Nat.div_lt_self (Nat.succ_pos m) (by norm_num : (1:Nat) < 10); omega)
    (le_refl _)

theorem hexRev_zero : hexRev 0 = [] := rfl

theorem hexRev_succ (m : Nat) :
    hexRev (m + 1) = Nat.digitChar ((m + 1) % 16) :: hexRev ((m + 1) / 16) := by
  unfold hexRev
  rw [hexRevAux]
  congr 1
  exact hexRevAux_fuel ((m + 1) / 16) m ((m + 1) / 16)
    (by have := Nat.div_lt_self (Nat.succ_pos m) (by norm_num : (1:Nat) < 16); omega)
    (le_refl _)

theorem decDigitVal_digitChar {d : Nat} (h : d < 10) :
    decDigitVal (Nat.digitChar d) = d := by
  interval_cases d <;> decide

theorem hexDigitVal_digitChar {d : Nat} (h : d < 16) :
    hexDigitVal (Nat.digitChar d) = d := by
  interval_cases d <;> decide

theorem isDecDigitC_digitChar {d : Nat} (h : d < 10) :
    isDecDigitC (Nat.digitChar d) = true := by
  interval_cases d <;> decide

theorem isHexDigitC_digitChar {d : Nat} (h : d < 16) :
    isHexDigitC (Nat.digitChar d) = true := by
  interval_cases d <;> decide

theorem mem_decRev_isDecDigit {c : Char} {n : Nat} (h : c ∈ decRev n) :
    isDecDigitC c = true := by
  induction n using Nat.strong_induction_on with
  | _ n ih =>
    match n, h with
    | 0, h => rw [decRev_zero] at h; exact absurd h (List.not_mem_nil c)
    | m + 1, h =>
      rw [decRev_succ] at h
      rcases List.mem_cons.mp h with h1 | h2
      · subst h1; exact isDecDigitC_digitChar (Nat.mod_lt _ (by norm_num))
      · exact ih ((m + 1) / 10) (Nat.div_lt_self (Nat.succ_pos m) (by norm_num)) h2

theorem mem_hexRev_isHexDigit {c : Char} {n : Nat} (h : c ∈ hexRev n) :
    isHexDigitC c = true := by
  induction n using Nat.strong_induction_on with
  | _ n ih =>
    match n, h with
    | 0, h => rw [hexRev_zero] at h; exact absurd h (List.not_mem_nil c)
    | m + 1, h =>
      rw [hexRev_succ] at h
      rcases List.mem_cons.mp h with h1 | h2
      · subst h1; exact isHexDigitC_digitChar (Nat.mod_lt _ (by norm_num))
      · exact ih ((m + 1) / 16) (Nat.div_lt_self (Nat.succ_pos m) (by norm_num)) h2

theorem mem_decChars_isDecDigit {c : Char} {n : Nat} (h : c ∈ decChars n) :
    isDecDigitC c = true := by
  unfold decChars at h
  split at h
  · simp at h; subst h; decide
  · exact mem_decRev_isDecDigit (List.mem_reverse.mp h)

theorem mem_hexChars_isHexDigit {c : Char} {n : Nat} (h : c ∈ hexChars n) :
    isHexDigitC c = true := by
  unfold hexChars at h
  split at h
  · simp at h; subst h; decide
  · exact mem_hexRev_isHexDigit (List.mem_reverse.mp h)

theorem decChars_ne_nil (n : Nat) : decChars n ≠ [] := by
  unfold decChars
  split
  · simp
  · simp only [ne_eq, List.reverse_eq_nil_iff]
    match n with
    | m + 1 => rw [decRev_succ]; simp

theorem hexChars_ne_nil (n : Nat) : hexChars n ≠ [] := by
  unfold hexChars
  split
  · simp
  · simp only [ne_eq, List.reverse_eq_nil_iff]
    match n with
    | m + 1 => rw [hexRev_succ]; simp

theorem foldl_decRev (n : Nat) : ∀ a : Nat,
    List.foldl (fun a c => a * 10 + decDigitVal c) a (decRev n).reverse =
      a * 10 ^ (decRev n).length + n := by
  induction n using Nat.strong_induction_on with
  | _ n ih =>
    match n with
    | 0 => intro a; rw [decRev_zero]; simp
    | m + 1 =>
      intro a
      rw [decRev_succ]
      simp only [List.reverse_cons, List.foldl_append, List.foldl_cons, List.foldl_nil,
        List.length_cons]
      rw [ih ((m + 1) / 10) (Nat.div_lt_self (Nat.succ_pos m) (by norm_num)) a]
      rw [decDigitVal_digitChar (Nat.mod_lt _ (by norm_num))]
      have hdm : 10 * ((m + 1) / 10) + (m + 1) % 10 = m + 1 := Nat.div_add_mod (m + 1) 10
      ring_nf
      omega

theorem foldl_hexRev (n : Nat) : ∀ a : Nat,
    List.foldl (fun a c => a * 16 + hexDigitVal c) a (hexRev n).reverse =
      a * 16 ^ (hexRev n).length + n := by
  induction n using Nat.strong_induction_on with
  | _ n ih =>
    match n with
    | 0 => intro a; rw [hexRev_zero]; simp
    | m + 1 =>
      intro a
      rw [hexRev_succ]
      simp only [List.reverse_cons, List.foldl_append, List.foldl_cons, List.foldl_nil,
        List.length_cons]
      rw [ih ((m + 1) / 16) (Nat.div_lt_self (Nat.succ_pos m) (by norm_num)) a]
      rw [hexDigitVal_digitChar (Nat.mod_lt _ (by norm_num))]
      have hdm : 16 * ((m + 1) / 16) + (m + 1) % 16 = m + 1 := Nat.div_add_mod (m + 1) 16
      ring_nf
      omega

theorem decVal_decChars (n : Nat) : decVal (decChars n) = n := by
  unfold decVal decChars
  split
  · simp_all; decide
  · simpa using foldl_decRev n 0

theorem hexVal_hexChars (n : Nat) : hexVal (hexChars n) = n := by
  unfold hexVal hexChars
  split
  · simp_all; decide
  · simpa using foldl_hexRev n 0

theorem digitChar_ne_zero {d : Nat} (h0 : 0 < d) (h10 : d < 10) :
    Nat.digitChar d ≠ '0' := by
  interval_cases d <;> decide

theorem decRev_reverse_head (n : Nat) (h : 0 < n) :
    ∃ c t, (decRev n).reverse = c :: t ∧ c ≠ '0' := by
  induction n using Nat.strong_induction_on with
  | _ n ih =>
    match n, h with
    | m + 1, _ =>
      rw [decRev_succ]
      by_cases hq : (m + 1) / 10 = 0
      · rw [hq, decRev_zero]
        refine ⟨Nat.digitChar ((m + 1) % 10), [], by simp, ?_⟩
        have hlt : m + 1 < 10 := by
          by_contra hc
          exact absurd (Nat.div_eq_of_lt (by omega) ▸ hq) (by
            have : (m + 1) / 10 ≥ 1 := Nat.one_le_div_iff (by norm_num) |>.mpr (by omega)
            omega)
        rw [Nat.mod_eq_of_lt hlt]
        exact digitChar_ne_zero (Nat.succ_pos m) hlt
      · obtain ⟨c, t, hct, hc0⟩ :=
          ih ((m + 1) / 10) (Nat.div_lt_self (Nat.succ_pos m) (by norm_num)) (Nat.pos_of_ne_zero hq)
        exact ⟨c, t ++ [Nat.digitChar ((m + 1) % 10)], by simp [hct], hc0⟩

theorem decChars_head (n : Nat) (h : 0 < n) :
    ∃ c t, decChars n = c :: t ∧ c ≠ '0' := by
  unfold decChars
  rw [if_neg (by omega)]
  exact decRev_reverse_head n h

theorem decRev_length_le {n k : Nat} (h : n < 10 ^ k) : (decRev n).length ≤ k := by
  induction k generalizing n with
  | zero =>
    have : n = 0 := by simpa using h
    subst this; rw [decRev_zero]; simp
  | succ k ih =>
    match n with
    | 0 => rw [decRev_zero]; simp
    | m + 1 =>
      rw [decRev_succ]
      simp only [List.length_cons]
      have hq : (m + 1) / 10 < 10 ^ k := by
        rw [Nat.div_lt_iff_lt_mul (by norm_num)]
        calc m + 1 < 10 ^ (k + 1) := h
        _ = 10 ^ k * 10 := by ring
      exact Nat.succ_le_succ (ih hq)

theorem hexRev_length_le {n k : Nat} (h : n < 16 ^ k) : (hexRev n).length ≤ k := by
  induction k generalizing n with
  | zero =>
    have : n = 0 := by simpa using h
    subst this; rw [hexRev_zero]; simp
  | succ k ih =>
    match n with
    | 0 => rw [hexRev_zero]; simp
    | m + 1 =>
      rw [hexRev_succ]
      simp only [List.length_cons]
      have hq : (m + 1) / 16 < 16 ^ k := by
        rw [Nat.div_lt_iff_lt_mul (by norm_num)]
        calc m + 1 < 16 ^ (k + 1) := h
        _ = 16 ^ k * 16 := by ring
      exact Nat.succ_le_succ (ih hq)

theorem decChars_length_le {n k : Nat} (hk : 0 < k) (h : n < 10 ^ k) :
    (decChars n).length ≤ k := by
  unfold decChars
  split
  · simpa using hk
  · simpa using decRev_length_le h

theorem hexChars_length_le {n k : Nat} (hk : 0 < k) (h : n < 16 ^ k) :
    (hexChars n).length ≤ k := by
  unfold hexChars
  split
  · simpa using hk
  · simpa using hexRev_length_le h

theorem splitOnC_ne_nil (sep : Char) (l : List Char) : splitOnC sep l ≠ [] := by
  match l with
  | [] => simp [splitOnC]
  | c :: t =>
    rw [splitOnC]
    split
    · simp
    · match h : splitOnC sep t with
      | [] => simp
      | g :: gs => simp

theorem splitOnC_sep_free {sep : Char} {l : List Char} (h : sep ∉ l) :
    splitOnC sep l = [l] := by
  induction l with
  | nil => rfl
  | cons c t ih =>
    rw [splitOnC]
    rw [if_neg (by intro hc; exact h (hc ▸ List.mem_cons_self c t))]
    rw [ih (fun hm => h (List.mem_cons_of_mem c hm))]

theorem splitOnC_append {sep : Char} {g r : List Char} (h : sep ∉ g) :
    splitOnC sep (g ++ sep :: r) = g :: splitOnC sep r := by
  induction g with
  | nil => simp [splitOnC]
  | cons c t ih =>
    rw [List.cons_append, splitOnC]
    rw [if_neg (by intro hc; exact h (hc ▸ List.mem_cons_self c t))]
    rw [ih (fun hm => h (List.mem_cons_of_mem c hm))]

theorem splitOnC_joinSep {sep : Char} {gs : List (List Char)} (hne : gs ≠ [])
    (hfree : ∀ g ∈ gs, sep ∉ g) :
    splitOnC sep (joinSep sep gs) = gs := by
  induction gs with
  | nil => exact absurd rfl hne
  | cons g gs ih =>
    match gs with
    | [] =>
      rw [joinSep]
      exact splitOnC_sep_free (hfree g (List.mem_cons_self g []))
    | g2 :: gs2 =>
      rw [joinSep]
      rw [splitOnC_append (hfree g (List.mem_cons_self g _))]
      rw [ih (by simp) (fun x hx => hfree x (List.mem_cons_of_mem g hx))]

theorem mem_joinSep {sep c : Char} {gs : List (List Char)} (h : c ∈ joinSep sep gs) :
    c = sep ∨ ∃ g ∈ gs, c ∈ g := by
  induction gs with
  | nil => rw [joinSep] at h; exact absurd h (List.not_mem_nil c)
  | cons g gs ih =>
    match gs with
    | [] =>
      rw [joinSep] at h
      exact Or.inr ⟨g, List.mem_cons_self g [], h⟩
    | g2 :: gs2 =>
      rw [joinSep] at h
      rcases List.mem_append.mp h with h1 | h2
      · exact Or.inr ⟨g, List.mem_cons_self g _, h1⟩
      · rcases List.mem_cons.mp h2 with h3 | h4
        · exact Or.inl h3
        · rcases ih h4 with h5 | ⟨g3, hg3, hcg3⟩
          · exact Or.inl h5
          · exact Or.inr ⟨g3, List.mem_cons_of_mem g hg3, hcg3⟩

theorem joinSep_length_le (sep : Char) {gs : List (List Char)} {k : Nat}
    (h : ∀ g ∈ gs, g.length ≤ k) :
    (joinSep sep gs).length ≤ (k + 1) * gs.length := by
  induction gs with
  | nil => rw [joinSep]; simp
  | cons g gs ih =>
    match gs with
    | [] =>
      rw [joinSep]
      have := h g (List.mem_cons_self g [])
      simp only [List.length_cons, List.length_nil]
      omega
    | g2 :: gs2 =>
      rw [joinSep]
      have h1 := h g (List.mem_cons_self g _)
      have h2 := ih (fun x hx => h x (List.mem_cons_of_mem g hx))
      simp only [List.length_append, List.length_cons] at h2 ⊢
      have h3 : (k + 1) * (gs2.length + 1 + 1) = (k + 1) * (gs2.length + 1) + (k + 1) := by
        ring
      omega

theorem joinSep_ne_nil {sep : Char} {g : List Char} {gs : List (List Char)}
    (h : g ≠ []) : joinSep sep (g :: gs) ≠ [] := by
  match gs with
  | [] => rw [joinSep]; exact h
  | g2 :: gs2 =>
    rw [joinSep]
    intro hc
    rcases List.append_eq_nil.mp hc with ⟨h1, _⟩
    exact h h1

theorem noDC_of_colon_free_append {g t : List Char} (hg : ':' ∉ g)
    (ht : noDC t = true) : noDC (g ++ t) = true := by
  induction g with
  | nil => simpa using ht
  | cons c g2 ih =>
    have hc : c ≠ ':' := fun hc => hg (hc ▸ List.mem_cons_self c g2)
    have hg2 : ':' ∉ g2 := fun hm => hg (List.mem_cons_of_mem c hm)
    cases hgt : g2 ++ t with
    | nil => rw [List.cons_append, hgt]; rfl
    | cons d rest =>
      rw [List.cons_append, hgt, noDC, if_neg (fun hcc => hc hcc.1), ← hgt]
      exact ih hg2

theorem noDC_colon_cons {t : List Char} (ht : noDC t = true)
    (hh : ∀ c2 t2, t = c2 :: t2 → c2 ≠ ':') : noDC (':' :: t) = true := by
  match t with
  | [] => rfl
  | c2 :: t2 =>
    rw [noDC, if_neg (fun hcc => hh c2 t2 rfl hcc.2)]
    exact ht

theorem findDC_of_noDC {l : List Char} (h : noDC l = true) : findDC l = none := by
  induction l with
  | nil => rfl
  | cons c t ih =>
    match t with
    | [] => rfl
    | c2 :: t2 =>
      rw [noDC] at h
      rw [findDC]
      by_cases hcc : c = ':' ∧ c2 = ':'
      · rw [if_pos hcc] at h; exact absurd h (by simp)
      · rw [if_neg hcc] at h
        rw [if_neg hcc, ih h]
        rfl

theorem findDC_append {l r : List Char} (h : noDC (l ++ [':']) = true) :
    findDC (l ++ ':' :: ':' :: r) = some (l, r) := by
  induction l with
  | nil => rw [List.nil_append, findDC, if_pos ⟨rfl, rfl⟩]
  | cons c t ih =>
    match t with
    | [] =>
      have hc : c ≠ ':' := by
        intro hc
        rw [hc] at h
        simp [noDC] at h
      have h2 : findDC (':' :: ':' :: r) = some ([], r) := by
        rw [findDC, if_pos ⟨rfl, rfl⟩]
      rw [List.cons_append, List.nil_append, findDC,
        if_neg (fun hcc => hc hcc.1), h2]
      rfl
    | c2 :: t2 =>
      simp only [List.cons_append] at h ⊢
      rw [noDC] at h
      by_cases hcc : c = ':' ∧ c2 = ':'
      · rw [if_pos hcc] at h; exact absurd h (by simp)
      · rw [if_neg hcc] at h
        rw [findDC, if_neg hcc]
        have ih2 : findDC (c2 :: (t2 ++ ':' :: ':' :: r)) = some (c2 :: t2, r) := ih h
        rw [ih2]
        rfl

theorem joinSep_cons_eq (sep : Char) (g : List Char) (gs : List (List Char)) :
    ∃ t, joinSep sep (g :: gs) = g ++ t := by
  cases gs with
  | nil => exact ⟨[], by rw [joinSep]; simp⟩
  | cons g2 gs2 => exact ⟨sep :: joinSep sep (g2 :: gs2), by rw [joinSep]⟩

theorem noDC_joinSep {gs : List (List Char)} (hne : ∀ g ∈ gs, g ≠ [])
    (hfree : ∀ g ∈ gs, ':' ∉ g) : noDC (joinSep ':' gs ++ [':']) = true := by
  induction gs with
  | nil => rfl
  | cons g gs ih =>
    match gs with
    | [] =>
      rw [joinSep]
      exact noDC_of_colon_free_append (hfree g (List.mem_cons_self g [])) rfl
    | g2 :: gs2 =>
      rw [joinSep, List.append_assoc, List.cons_append]
      refine noDC_of_colon_free_append (hfree g (List.mem_cons_self g _)) ?_
      refine noDC_colon_cons ?_ ?_
      · exact ih (fun x hx => hne x (List.mem_cons_of_mem g hx))
          (fun x hx => hfree x (List.mem_cons_of_mem g hx))
      · intro c2 t2 heq hc2
        subst hc2
        have hg2ne : g2 ≠ [] := hne g2 (List.mem_cons_of_mem g (List.mem_cons_self g2 gs2))
        have hg2free : ':' ∉ g2 := hfree g2 (List.mem_cons_of_mem g (List.mem_cons_self g2 gs2))
        obtain ⟨t3, ht3⟩ := joinSep_cons_eq ':' g2 gs2
        rw [ht3] at heq
        match g2, hg2ne with
        | gc :: gt, _ =>
          rw [List.cons_append, List.cons_append] at heq
          injection heq with h1 _
          exact hg2free (h1 ▸ List.mem_cons_self gc gt)

theorem idxOfFirst_eq_none {c : Char} {l : List Char} :
    idxOfFirst c l = none ↔ c ∉ l := by
  induction l with
  | nil => simp [idxOfFirst]
  | cons x t ih =>
    rw [idxOfFirst]
    by_cases hx : x = c
    · rw [if_pos hx]
      simp [hx]
    · rw [if_neg hx]
      constructor
      · intro h hm
        rcases List.mem_cons.mp hm with h1 | h2
        · exact hx h1.symm
        · exact (ih.mp (by simpa using h)) h2
      · intro h
        have : c ∉ t := fun hm => h (List.mem_cons_of_mem x hm)
        rw [ih.mpr this]
        rfl

theorem idxOfLast_eq_none {c : Char} {l : List Char} :
    idxOfLast c l = none ↔ c ∉ l := by
  induction l with
  | nil => simp [idxOfLast]
  | cons x t ih =>
    rw [idxOfLast]
    cases hin : idxOfLast c t with
    | some i =>
      simp only []
      constructor
      · intro h; exact absurd h (by simp)
      · intro h
        have : c ∉ t := fun hm => h (List.mem_cons_of_mem x hm)
        rw [ih.mpr this] at hin
        exact absurd hin (by simp)
    | none =>
      have hct : c ∉ t := ih.mp hin
      by_cases hx : x = c
      · rw [if_pos hx]
        constructor
        · intro h; exact absurd h (by simp)
        · intro h; exact absurd (hx ▸ List.mem_cons_self x t) h
      · rw [if_neg hx]
        constructor
        · intro _ hm
          rcases List.mem_cons.mp hm with h1 | h2
          · exact hx h1.symm
          · exact hct h2
        · intro _; rfl

theorem idxOfFirst_append {c : Char} {a b : List Char} (h : c ∉ a) :
    idxOfFirst c (a ++ c :: b) = some a.length := by
  induction a with
  | nil => rw [List.nil_append, idxOfFirst, if_pos rfl]; rfl
  | cons x t ih =>
    have hx : x ≠ c := fun hx => h (hx ▸ List.mem_cons_self x t)
    rw [List.cons_append, idxOfFirst, if_neg hx,
      ih (fun hm => h (List.mem_cons_of_mem x hm))]
    rfl

theorem idxOfLast_append {c : Char} {a b : List Char} (h : c ∉ b) :
    idxOfLast c (a ++ c :: b) = some a.length := by
  induction a with
  | nil =>
    rw [List.nil_append, idxOfLast, idxOfLast_eq_none.mpr h, if_pos rfl]
    rfl
  | cons x t ih =>
    rw [List.cons_append, idxOfLast, ih]
    rfl

theorem idxOfLast_mem_drop {c : Char} {l : List Char} {i : Nat}
    (h : idxOfLast c l = some i) : c ∈ l.drop i := by
  induction l generalizing i with
  | nil => exact absurd h (by simp [idxOfLast])
  | cons x t ih =>
    rw [idxOfLast] at h
    cases hin : idxOfLast c t with
    | some j =>
      rw [hin] at h
      injection h with h1
      subst h1
      simpa using ih hin
    | none =>
      rw [hin] at h
      by_cases hx : x = c
      · rw [if_pos hx] at h
        injection h with h1
        subst h1
        exact hx ▸ List.mem_cons_self x t
      · rw [if_neg hx] at h
        exact absurd h (by simp)

theorem bytesFromWords_wordsFromBytes :
    ∀ l : List Nat, (∀ x ∈ l, x < 256) → l.length % 2 = 0 →
      bytesFromWords (wordsFromBytes l) = l
  | [], _, _ => rfl
  | [b], _, hev => by simp at hev
  | b0 :: b1 :: t, hb, hev => by
    rw [wordsFromBytes, bytesFromWords]
    have hb0 : b0 < 256 := hb b0 (by simp)
    have hb1 : b1 < 256 := hb b1 (by simp)
    have h1 : (b0 * 256 + b1) / 256 = b0 := by omega
    have h2 : (b0 * 256 + b1) % 256 = b1 := by omega
    rw [h1, h2,
      bytesFromWords_wordsFromBytes t (fun x hx => hb x (by simp [hx]))
        (by simp only [List.length_cons] at hev; omega)]

theorem wordsFromBytes_length :
    ∀ l : List Nat, (wordsFromBytes l).length = l.length / 2
  | [] => rfl
  | [b] => by rw [wordsFromBytes.eq_def]; simp
  | b0 :: b1 :: t => by
    rw [wordsFromBytes]
    simp only [List.length_cons]
    rw [wordsFromBytes_length t]
    omega

theorem mem_wordsFromBytes_lt :
    ∀ l : List Nat, (∀ x ∈ l, x < 256) → ∀ w ∈ wordsFromBytes l, w < 65536
  | [], _, w, hw => absurd hw (by simp [wordsFromBytes])
  | [b], _, w, hw => absurd hw (by simp [wordsFromBytes])
  | b0 :: b1 :: t, hb, w, hw => by
    rw [wordsFromBytes] at hw
    rcases List.mem_cons.mp hw with h1 | h2
    · have hb0 : b0 < 256 := hb b0 (by simp)
      have hb1 : b1 < 256 := hb b1 (by simp)
      omega
    · exact mem_wordsFromBytes_lt t (fun x hx => hb x (by simp [hx])) w h2

theorem zrun_le_length (l : List Nat) : zrun l ≤ l.length := by
  induction l with
  | nil => rw [zrun.eq_def]; simp
  | cons x t ih =>
    match x with
    | 0 => rw [zrun]; simpa using ih
    | y + 1 => rw [zrun.eq_def]; simp

theorem zrun_decompose (l : List Nat) :
    l = List.replicate (zrun l) 0 ++ l.drop (zrun l) := by
  induction l with
  | nil => rfl
  | cons x t ih =>
    match x with
    | 0 =>
      rw [zrun]
      calc (0 : Nat) :: t
          = 0 :: (List.replicate (zrun t) 0 ++ t.drop (zrun t)) := by rw [← ih]
        _ = List.replicate (zrun t + 1) 0 ++ (0 :: t).drop (zrun t + 1) := by
            rw [List.replicate_succ]
            rfl
    | y + 1 =>
      rw [zrun.eq_def]
      simp

theorem bestRun_foldl_spec (ws : List Nat) (L : List Nat) :
    ∀ acc : Option (Nat × Nat),
      (acc = none ∨ ∃ b l, acc = some (b, l) ∧ l = zrun (ws.drop b) ∧ 2 ≤ l) →
      (let r := L.foldl
        (fun acc i =>
          match acc with
          | none => if 2 ≤ zrun (ws.drop i) then some (i, zrun (ws.drop i)) else none
          | some b => if b.2 < zrun (ws.drop i) then some (i, zrun (ws.drop i)) else some b)
        acc
       r = none ∨ ∃ b l, r = some (b, l) ∧ l = zrun (ws.drop b) ∧ 2 ≤ l) := by
  induction L with
  | nil => intro acc h; exact h
  | cons i t ih =>
    intro acc h
    rcases h with h0 | ⟨b, l, hbl, hz, h2⟩
    · subst h0
      simp only [List.foldl_cons]
      by_cases hz2 : 2 ≤ zrun (ws.drop i)
      · exact ih _ (Or.inr ⟨i, zrun (ws.drop i), by rw [if_pos hz2], rfl, hz2⟩)
      · exact ih _ (Or.inl (by rw [if_neg hz2]))
    · subst hbl
      simp only [List.foldl_cons]
      by_cases hlt : l < zrun (ws.drop i)
      · exact ih _ (Or.inr ⟨i, zrun (ws.drop i), by rw [if_pos hlt], rfl, by omega⟩)
      · exact ih _ (Or.inr ⟨b, l, by rw [if_neg hlt], hz, h2⟩)

theorem bestRun_spec {ws : List Nat} {b l : Nat} (h : bestRun ws = some (b, l)) :
    l = zrun (ws.drop b) ∧ 2 ≤ l := by
  have := bestRun_foldl_spec ws (List.range ws.length) none (Or.inl rfl)
  simp only [] at this
  rw [bestRun] at h
  rcases this with h0 | ⟨b2, l2, hbl, hz, h2⟩
  · rw [h0] at h; exact absurd h (by simp)
  · rw [hbl] at h
    injection h with h3
    injection h3 with h4 h5
    subst h4; subst h5
    exact ⟨hz, h2⟩

/- ### Round trip: presentation text back to binary -/

theorem noDC_append_left {l r : List Char} (h : noDC (l ++ r) = true) :
    noDC l = true := by
  induction l with
  | nil => rfl
  | cons c t ih =>
    match t with
    | [] => rfl
    | c2 :: t2 =>
      simp only [List.cons_append] at h
      rw [noDC] at h ⊢
      by_cases hcc : c = ':' ∧ c2 = ':'
      · rw [if_pos hcc] at h; exact absurd h (by simp)
      · rw [if_neg hcc] at h
        rw [if_neg hcc]
        exact ih h

theorem isHexDigitC_ne_colon {c : Char} (h : isHexDigitC c = true) : c ≠ ':' := by
  intro hc
  subst hc
  simp [isHexDigitC] at h

theorem colon_not_mem_hexChars {w : Nat} : ':' ∉ hexChars w := by
  intro hm
  exact isHexDigitC_ne_colon (mem_hexChars_isHexDigit hm) rfl

theorem hexGroupVal_hexChars {w : Nat} (h : w < 65536) :
    hexGroupVal (hexChars w) = some w := by
  unfold hexGroupVal
  rw [if_pos, hexVal_hexChars]
  refine ⟨hexChars_ne_nil w, ?_, ?_⟩
  · rw [List.all_eq_true]
    intro c hc
    exact mem_hexChars_isHexDigit hc
  · rw [hexVal_hexChars]; exact h

theorem mapMOpt_hexGroupVal {ws : List Nat} (h : ∀ w ∈ ws, w < 65536) :
    mapMOpt hexGroupVal (ws.map hexChars) = some ws := by
  induction ws with
  | nil => rfl
  | cons w t ih =>
    rw [List.map_cons, mapMOpt, hexGroupVal_hexChars (h w (by simp)),
      ih (fun x hx => h x (by simp [hx]))]

theorem sideGroups_joinSep {gs : List (List Char)} (hne : ∀ g ∈ gs, g ≠ [])
    (hfree : ∀ g ∈ gs, ':' ∉ g) : sideGroups (joinSep ':' gs) = gs := by
  match gs with
  | [] => rw [joinSep]; rfl
  | g :: gs2 =>
    unfold sideGroups
    rw [if_neg (joinSep_ne_nil (hne g (List.mem_cons_self g gs2)))]
    exact splitOnC_joinSep (by simp) hfree

theorem hexChars_map_ne_nil (ws : List Nat) : ∀ g ∈ ws.map hexChars, g ≠ [] := by
  intro g hg
  rcases List.mem_map.mp hg with ⟨w, _, hw⟩
  exact hw ▸ hexChars_ne_nil w

theorem hexChars_map_colon_free (ws : List Nat) : ∀ g ∈ ws.map hexChars, ':' ∉ g := by
  intro g hg
  rcases List.mem_map.mp hg with ⟨w, _, hw⟩
  exact hw ▸ colon_not_mem_hexChars

theorem inet_pton6_inet_ntop6 {bytes : List Nat} (hlen : bytes.length = 16)
    (hb : ∀ x ∈ bytes, x < 256) : inet_pton6 (inet_ntop6 bytes) = some bytes := by
  have hwlen : (wordsFromBytes bytes).length = 8 := by
    rw [wordsFromBytes_length, hlen]
  have hwlt : ∀ w ∈ wordsFromBytes bytes, w < 65536 := mem_wordsFromBytes_lt bytes hb
  have hback : bytesFromWords (wordsFromBytes bytes) = bytes :=
    bytesFromWords_wordsFromBytes bytes hb (by rw [hlen])
  unfold inet_ntop6
  cases hbr : bestRun (wordsFromBytes bytes) with
  | none =>
    show inet_pton6 (joinSep ':' ((wordsFromBytes bytes).map hexChars)) = some bytes
    have hgne := hexChars_map_ne_nil (wordsFromBytes bytes)
    have hgfree := hexChars_map_colon_free (wordsFromBytes bytes)
    have hnodc : noDC (joinSep ':' ((wordsFromBytes bytes).map hexChars)) = true :=
      noDC_append_left (noDC_joinSep hgne hgfree)
    unfold inet_pton6
    rw [findDC_of_noDC hnodc]
    have hsplit : splitOnC ':' (joinSep ':' ((wordsFromBytes bytes).map hexChars)) =
        (wordsFromBytes bytes).map hexChars := by
      refine splitOnC_joinSep ?_ hgfree
      intro hnil
      rw [List.map_eq_nil_iff] at hnil
      rw [hnil] at hwlen
      simp at hwlen
    simp only [hsplit, mapMOpt_hexGroupVal hwlt, hwlen]
    rw [if_pos trivial, hback]
  | some bl =>
    obtain ⟨b, l⟩ := bl
    obtain ⟨hz, h2⟩ := bestRun_spec hbr
    have hdl : (wordsFromBytes bytes).drop b ≠ [] := by
      intro hnil
      rw [hnil] at hz
      rw [zrun.eq_def] at hz
      simp at hz
      omega
    have hble : b + l ≤ 8 := by
      have h1 := zrun_le_length ((wordsFromBytes bytes).drop b)
      rw [← hz] at h1
      rw [List.length_drop, hwlen] at h1
      have hb8 : b < 8 := by
        by_contra hc
        exact hdl (List.drop_eq_nil_of_le (by rw [hwlen]; omega))
      omega
    show inet_pton6
        (joinSep ':' (((wordsFromBytes bytes).take b).map hexChars) ++ ':' :: ':' ::
          joinSep ':' (((wordsFromBytes bytes).drop (b + l)).map hexChars)) = some bytes
    have hgneL := hexChars_map_ne_nil ((wordsFromBytes bytes).take b)
    have hgfreeL := hexChars_map_colon_free ((wordsFromBytes bytes).take b)
    have hgneR := hexChars_map_ne_nil ((wordsFromBytes bytes).drop (b + l))
    have hgfreeR := hexChars_map_colon_free ((wordsFromBytes bytes).drop (b + l))
    unfold inet_pton6
    have hltL : ∀ w ∈ (wordsFromBytes bytes).take b, w < 65536 :=
      fun w hw => hwlt w (List.take_subset b _ hw)
    have hltR : ∀ w ∈ (wordsFromBytes bytes).drop (b + l), w < 65536 :=
      fun w hw => hwlt w (List.drop_subset (b + l) _ hw)
    have hlenL : ((wordsFromBytes bytes).take b).length = b := by
      rw [List.length_take, hwlen]
      omega
    have hlenR : ((wordsFromBytes bytes).drop (b + l)).length = 8 - (b + l) := by
      rw [List.length_drop, hwlen]
    rw [findDC_append (noDC_joinSep hgneL hgfreeL)]
    simp only [sideGroups_joinSep hgneL hgfreeL, sideGroups_joinSep hgneR hgfreeR,
      mapMOpt_hexGroupVal hltL, mapMOpt_hexGroupVal hltR, hlenL, hlenR]
    rw [if_pos (by omega)]
    have hcnt : 8 - b - (8 - (b + l)) = l := by omega
    rw [hcnt]
    have hsplitz : (wordsFromBytes bytes).drop b =
        List.replicate l 0 ++ (wordsFromBytes bytes).drop (b + l) := by
      have h1 := zrun_decompose ((wordsFromBytes bytes).drop b)
      rw [← hz] at h1
      rw [List.drop_drop] at h1
      exact h1
    have hws : (wordsFromBytes bytes).take b ++ List.replicate l 0 ++
        (wordsFromBytes bytes).drop (b + l) = wordsFromBytes bytes := by
      rw [List.append_assoc, ← hsplitz, List.take_append_drop]
    rw [hws, hback]

theorem isDecDigitC_ne_dot {c : Char} (h : isDecDigitC c = true) : c ≠ '.' := by
  intro hc
  subst hc
  simp [isDecDigitC] at h

theorem dot_not_mem_decChars {n : Nat} : '.' ∉ decChars n := by
  intro hm
  exact isDecDigitC_ne_dot (mem_decChars_isDecDigit hm) rfl

theorem octetVal_decChars {b : Nat} (h : b < 256) : octetVal (decChars b) = some b := by
  by_cases hb0 : b = 0
  · subst hb0
    rfl
  · obtain ⟨c, t, hct, hc0⟩ := decChars_head b (Nat.pos_of_ne_zero hb0)
    rw [hct, octetVal, if_neg (fun hp => hc0 hp.1)]
    have hdig : (c :: t).all isDecDigitC = true := by
      rw [List.all_eq_true]
      intro x hx
      exact mem_decChars_isDecDigit (hct ▸ hx)
    have hval : decVal (c :: t) = b := hct ▸ decVal_decChars b
    rw [if_pos ⟨hdig, by rw [hval]; omega⟩, hval]

theorem inet_pton4_inet_ntop4 {b0 b1 b2 b3 : Nat} (h0 : b0 < 256) (h1 : b1 < 256)
    (h2 : b2 < 256) (h3 : b3 < 256) :
    inet_pton4 (inet_ntop4 [b0, b1, b2, b3]) = some [b0, b1, b2, b3] := by
  have hsplit : splitOnC '.' (joinSep '.' [decChars b0, decChars b1, decChars b2, decChars b3]) =
      [decChars b0, decChars b1, decChars b2, decChars b3] := by
    refine splitOnC_joinSep (by simp) ?_
    intro g hg
    have : ∃ n : Nat, g = decChars n := by
      simp only [List.mem_cons] at hg
      rcases hg with h | h | h | h | h
      · exact ⟨b0, h⟩
      · exact ⟨b1, h⟩
      · exact ⟨b2, h⟩
      · exact ⟨b3, h⟩
      · exact absurd h (List.not_mem_nil g)
    obtain ⟨n, hn⟩ := this
    exact hn ▸ dot_not_mem_decChars
  show inet_pton4 (joinSep '.' [decChars b0, decChars b1, decChars b2, decChars b3]) =
    some [b0, b1, b2, b3]
  unfold inet_pton4
  rw [hsplit]
  simp only [octetVal_decChars h0, octetVal_decChars h1, octetVal_decChars h2,
    octetVal_decChars h3]

/- ### Character content and length of the rendered address texts -/

theorem mem_hexChars_map {c : Char} {ws : List Nat} {g : List Char}
    (hg : g ∈ ws.map hexChars) (hc : c ∈ g) : isHexDigitC c = true := by
  rcases List.mem_map.mp hg with ⟨w, _, hw⟩
  exact mem_hexChars_isHexDigit (hw ▸ hc)

theorem mem_inet_ntop6 {c : Char} {bytes : List Nat} (h : c ∈ inet_ntop6 bytes) :
    isHexDigitC c = true ∨ c = ':' := by
  unfold inet_ntop6 at h
  cases hbr : bestRun (wordsFromBytes bytes) with
  | none =>
    rw [hbr] at h
    rcases mem_joinSep h with h1 | ⟨g, hg, hcg⟩
    · exact Or.inr h1
    · exact Or.inl (mem_hexChars_map hg hcg)
  | some bl =>
    obtain ⟨b, l⟩ := bl
    rw [hbr] at h
    simp only [] at h
    rcases List.mem_append.mp h with h1 | h2
    · rcases mem_joinSep h1 with h3 | ⟨g, hg, hcg⟩
      · exact Or.inr h3
      · exact Or.inl (mem_hexChars_map hg hcg)
    · rcases List.mem_cons.mp h2 with h3 | h4
      · exact Or.inr h3
      · rcases List.mem_cons.mp h4 with h5 | h6
        · exact Or.inr h5
        · rcases mem_joinSep h6 with h7 | ⟨g, hg, hcg⟩
          · exact Or.inr h7
          · exact Or.inl (mem_hexChars_map hg hcg)

theorem hexChars_map_length_le {ws : List Nat} (h : ∀ w ∈ ws, w < 65536) :
    ∀ g ∈ ws.map hexChars, g.length ≤ 4 := by
  intro g hg
  rcases List.mem_map.mp hg with ⟨w, hw, hgw⟩
  exact hgw ▸ hexChars_length_le (by norm_num) (by exact h w hw)

theorem inet_ntop6_length_le {bytes : List Nat} (hlen : bytes.length = 16)
    (hb : ∀ x ∈ bytes, x < 256) : (inet_ntop6 bytes).length ≤ 42 := by
  have hwlen : (wordsFromBytes bytes).length = 8 := by
    rw [wordsFromBytes_length, hlen]
  have hwlt : ∀ w ∈ wordsFromBytes bytes, w < 65536 := mem_wordsFromBytes_lt bytes hb
  unfold inet_ntop6
  cases hbr : bestRun (wordsFromBytes bytes) with
  | none =>
    show (joinSep ':' ((wordsFromBytes bytes).map hexChars)).length ≤ 42
    have h1 := joinSep_length_le ':' (hexChars_map_length_le hwlt)
    simp only [List.length_map, hwlen] at h1
    omega
  | some bl =>
    obtain ⟨b, l⟩ := bl
    obtain ⟨hz, h2⟩ := bestRun_spec hbr
    show (joinSep ':' (((wordsFromBytes bytes).take b).map hexChars) ++ ':' :: ':' ::
      joinSep ':' (((wordsFromBytes bytes).drop (b + l)).map hexChars)).length ≤ 42
    have hltL : ∀ w ∈ (wordsFromBytes bytes).take b, w < 65536 :=
      fun w hw => hwlt w (List.take_subset b _ hw)
    have hltR : ∀ w ∈ (wordsFromBytes bytes).drop (b + l), w < 65536 :=
      fun w hw => hwlt w (List.drop_subset (b + l) _ hw)
    have h3 := joinSep_length_le ':' (hexChars_map_length_le hltL)
    have h4 := joinSep_length_le ':' (hexChars_map_length_le hltR)
    simp only [List.length_map, List.length_take, List.length_drop, hwlen] at h3 h4
    simp only [List.length_append, List.length_cons]
    omega

theorem mem_inet_ntop4 {c : Char} {b0 b1 b2 b3 : Nat}
    (h : c ∈ inet_ntop4 [b0, b1, b2, b3]) : isDecDigitC c = true ∨ c = '.' := by
  unfold inet_ntop4 at h
  rcases mem_joinSep h with h1 | ⟨g, hg, hcg⟩
  · exact Or.inr h1
  · have : ∃ n : Nat, g = decChars n := by
      simp only [List.mem_cons] at hg
      rcases hg with h | h | h | h | h
      · exact ⟨b0, h⟩
      · exact ⟨b1, h⟩
      · exact ⟨b2, h⟩
      · exact ⟨b3, h⟩
      · exact absurd h (List.not_mem_nil g)
    obtain ⟨n, hn⟩ := this
    exact Or.inl (mem_decChars_isDecDigit (hn ▸ hcg))

theorem inet_ntop4_length_le {b0 b1 b2 b3 : Nat} (h0 : b0 < 256) (h1 : b1 < 256)
    (h2 : b2 < 256) (h3 : b3 < 256) : (inet_ntop4 [b0, b1, b2, b3]).length ≤ 16 := by
  unfold inet_ntop4
  have hlen : ∀ g ∈ [decChars b0, decChars b1, decChars b2, decChars b3], g.length ≤ 3 := by
    intro g hg
    have : ∃ n : Nat, n < 256 ∧ g = decChars n := by
      simp only [List.mem_cons] at hg
      rcases hg with h | h | h | h | h
      · exact ⟨b0, h0, h⟩
      · exact ⟨b1, h1, h⟩
      · exact ⟨b2, h2, h⟩
      · exact ⟨b3, h3, h⟩
      · exact absurd h (List.not_mem_nil g)
    obtain ⟨n, hn, hg2⟩ := this
    exact hg2 ▸ decChars_length_le (by norm_num) (by omega : n < 10 ^ 3)
  have := joinSep_length_le '.' hlen
  simpa using this

theorem isDecDigitC_not_space {c : Char} (h : isDecDigitC c = true) :
    isSpaceC c = false := by
  unfold isDecDigitC at h
  unfold isSpaceC
  simp only [Bool.and_eq_true, decide_eq_true_eq] at h
  simp only [Bool.or_eq_false_iff, decide_eq_false_iff_not]
  omega

theorem takeWhile_all {p : Char → Bool} {l : List Char} (h : ∀ c ∈ l, p c = true) :
    l.takeWhile p = l := by
  induction l with
  | nil => rfl
  | cons c t ih =>
    rw [List.takeWhile_cons, h c (by simp), ih (fun x hx => h x (by simp [hx]))]
    simp

theorem dropWhile_all {p : Char → Bool} {l : List Char} (h : ∀ c ∈ l, p c = true) :
    l.dropWhile p = [] := by
  induction l with
  | nil => rfl
  | cons c t ih =>
    rw [List.dropWhile_cons, h c (by simp)]
    exact ih (fun x hx => h x (by simp [hx]))

theorem dropWhile_cons_false {p : Char → Bool} {c : Char} {t : List Char}
    (h : p c = false) : (c :: t).dropWhile p = c :: t := by
  rw [List.dropWhile_cons, h]
  simp

theorem scanNumBase0_not_zero {c : Char} {t : List Char} (hc0 : c ≠ '0') :
    scanNumBase0 (c :: t) =
      if ((c :: t).takeWhile isDecDigitC) = [] then none
      else some (decVal ((c :: t).takeWhile isDecDigitC), (c :: t).dropWhile isDecDigitC) := by
  exact if_neg hc0

theorem parseTo_u64_decChars {n : Nat} (h0 : 0 < n) (h : n < 2 ^ 64) :
    parseTo_u64 (decChars n) = some n := by
  obtain ⟨c, t, hct, hc0⟩ := decChars_head n h0
  have hdig : ∀ x ∈ c :: t, isDecDigitC x = true := by
    intro x hx
    exact mem_decChars_isDecDigit (hct ▸ hx)
  have hcdig : isDecDigitC c = true := hdig c (by simp)
  have hdrop : (c :: t).dropWhile isSpaceC = c :: t :=
    dropWhile_cons_false (isDecDigitC_not_space hcdig)
  rw [parseTo_u64, hct, hdrop]
  have hshow : (match c :: t with
      | [] => none
      | c :: t1 =>
        if c = '-' then finishNum true (scanNumBase0 t1)
        else if c = '+' then finishNum false (scanNumBase0 t1)
        else finishNum false (scanNumBase0 (c :: t1))) =
      (if c = '-' then finishNum true (scanNumBase0 t)
       else if c = '+' then finishNum false (scanNumBase0 t)
       else finishNum false (scanNumBase0 (c :: t))) := rfl
  rw [hshow]
  have hcm : c ≠ '-' := by
    intro hc
    subst hc
    simp [isDecDigitC] at hcdig
  have hcp : c ≠ '+' := by
    intro hc
    subst hc
    simp [isDecDigitC] at hcdig
  rw [if_neg hcm, if_neg hcp]
  rw [scanNumBase0_not_zero hc0, if_neg (by rw [takeWhile_all hdig]; simp)]
  rw [takeWhile_all hdig, dropWhile_all hdig, ← hct, decVal_decChars]
  rw [finishNum]
  rw [if_neg (by omega)]
  simp

theorem decVal_lt (l : List Char) (h : ∀ c ∈ l, isDecDigitC c = true) :
    decVal l < 10 ^ l.length := by
  suffices hgen : ∀ a : Nat, List.foldl (fun a c => a * 10 + decDigitVal c) a l <
      (a + 1) * 10 ^ l.length by
    have := hgen 0
    simpa [decVal] using this
  induction l with
  | nil => intro a; simp
  | cons c t ih =>
    intro a
    rw [List.foldl_cons]
    have hd : decDigitVal c < 10 := by
      have := h c (by simp)
      unfold isDecDigitC at this
      simp only [Bool.and_eq_true, decide_eq_true_eq] at this
      unfold decDigitVal
      omega
    have h2 := ih (fun x hx => h x (by simp [hx])) (a * 10 + decDigitVal c)
    calc List.foldl (fun a c => a * 10 + decDigitVal c) (a * 10 + decDigitVal c) t
        < (a * 10 + decDigitVal c + 1) * 10 ^ t.length := h2
      _ ≤ (a + 1) * 10 ^ (c :: t).length := by
          simp only [List.length_cons, pow_succ]
          have : a * 10 + decDigitVal c + 1 ≤ (a + 1) * 10 := by omega
          calc (a * 10 + decDigitVal c + 1) * 10 ^ t.length
              ≤ (a + 1) * 10 * 10 ^ t.length := Nat.mul_le_mul_right _ this
            _ = (a + 1) * (10 ^ t.length * 10) := by ring

/- ### Behaviour of the disambiguation stage on decomposed inputs -/

theorem splitAddrPort_case1 {s : List Char} (h1 : ':' ∉ s) (h2 : '[' ∉ s)
    (h3 : ']' ∉ s) : splitAddrPort s = .ok (AF_INET, s, none) := by
  unfold splitAddrPort
  rw [idxOfFirst_eq_none.mpr h1, idxOfFirst_eq_none.mpr h2, idxOfLast_eq_none.mpr h3]
  simp

theorem splitAddrPort_case2 {a b : List Char} (ha : ':' ∉ a) (hb : ':' ∉ b)
    (h2 : '[' ∉ a ++ ':' :: b) (h3 : ']' ∉ a ++ ':' :: b) :
    splitAddrPort (a ++ ':' :: b) =
      if scratchLen ≤ a.length then .error .invalidFormat
      else .ok (AF_INET, a, some b) := by
  unfold splitAddrPort
  rw [idxOfFirst_append ha, idxOfLast_append hb, idxOfFirst_eq_none.mpr h2,
    idxOfLast_eq_none.mpr h3]
  simp only [Option.isNone_some, Option.isNone_none, ne_eq, Option.some.injEq]
  rw [if_neg (by simp)]
  rw [if_neg (by simp)]
  rw [if_pos (by simp)]
  by_cases hlen : scratchLen ≤ a.length
  · rw [if_pos hlen, if_pos hlen]
  · rw [if_neg hlen, if_neg hlen, List.take_left]
    have hdrop : (a ++ ':' :: b).drop (a.length + 1) = b := by
      have : a ++ ':' :: b = (a ++ [':']) ++ b := by simp
      rw [this, show a.length + 1 = (a ++ [':']).length from by simp, List.drop_left]
    rw [hdrop]

theorem splitAddrPort_case3 {a m b : List Char} (ha : ':' ∉ a) (hb : ':' ∉ b)
    (h2 : '[' ∉ a ++ ':' :: (m ++ ':' :: b)) (h3 : ']' ∉ a ++ ':' :: (m ++ ':' :: b)) :
    splitAddrPort (a ++ ':' :: (m ++ ':' :: b)) =
      .ok (AF_INET6, a ++ ':' :: (m ++ ':' :: b), none) := by
  have hlast : idxOfLast ':' (a ++ ':' :: (m ++ ':' :: b)) =
      some (a.length + 1 + m.length) := by
    have heq : a ++ ':' :: (m ++ ':' :: b) = (a ++ ':' :: m) ++ ':' :: b := by simp
    rw [heq, idxOfLast_append hb]
    simp only [List.length_append, List.length_cons]
    congr 1
    omega
  unfold splitAddrPort
  rw [idxOfFirst_append ha, hlast, idxOfFirst_eq_none.mpr h2, idxOfLast_eq_none.mpr h3]
  rw [if_neg (by simp)]
  rw [if_neg (fun h => by exact absurd h.1 (by simp))]
  rw [if_neg (fun h => by
    have h5 := Option.some.inj h.2.1
    omega)]
  rw [if_pos ⟨by simp, by
    intro h
    have h5 := Option.some.inj h
    omega, rfl⟩]

theorem splitAddrPort_case4a {pre mid post : List Char} (h1 : '[' ∉ pre)
    (h3 : ']' ∉ post) (h4 : ':' ∉ post) :
    splitAddrPort (pre ++ '[' :: (mid ++ ']' :: post)) =
      if scratchLen ≤ mid.length then .error .invalidFormat
      else .ok (AF_INET6, mid, none) := by
  have hopen : idxOfFirst '[' (pre ++ '[' :: (mid ++ ']' :: post)) = some pre.length :=
    idxOfFirst_append h1
  have hclose : idxOfLast ']' (pre ++ '[' :: (mid ++ ']' :: post)) =
      some (pre.length + 1 + mid.length) := by
    have heq : pre ++ '[' :: (mid ++ ']' :: post) = (pre ++ '[' :: mid) ++ ']' :: post := by
      simp
    rw [heq, idxOfLast_append h3]
    simp only [List.length_append, List.length_cons]
    congr 1
    omega
  have hdropcb : (pre ++ '[' :: (mid ++ ']' :: post)).drop (pre.length + 1 + mid.length + 1) =
      post := by
    have heq : pre ++ '[' :: (mid ++ ']' :: post) = (pre ++ '[' :: mid ++ [']']) ++ post := by
      simp
    rw [heq, show pre.length + 1 + mid.length + 1 = (pre ++ '[' :: mid ++ [']']).length from
      by simp; omega, List.drop_left]
  have hlastle : ∀ lc, idxOfLast ':' (pre ++ '[' :: (mid ++ ']' :: post)) = some lc →
      ¬ (pre.length + 1 + mid.length < lc) := by
    intro lc hlc hcb
    have hmem := idxOfLast_mem_drop hlc
    have hdd : ((pre ++ '[' :: (mid ++ ']' :: post)).drop
        (pre.length + 1 + mid.length + 1)).drop (lc - (pre.length + 1 + mid.length + 1)) =
        (pre ++ '[' :: (mid ++ ']' :: post)).drop lc := by
      rw [List.drop_drop]
      congr 1
      omega
    rw [← hdd, hdropcb] at hmem
    exact h4 (List.drop_subset _ post hmem)
  have haddr : ((pre ++ '[' :: (mid ++ ']' :: post)).drop (pre.length + 1)).take mid.length =
      mid := by
    have heq : pre ++ '[' :: (mid ++ ']' :: post) = (pre ++ ['[']) ++ (mid ++ ']' :: post) := by
      simp
    rw [heq, show pre.length + 1 = (pre ++ ['[']).length from by simp, List.drop_left,
      List.take_left]
  unfold splitAddrPort
  rw [hopen, hclose]
  rw [if_neg (by simp)]
  rw [if_neg (fun h => by exact absurd h.2 (by simp))]
  rw [if_neg (fun h => by exact absurd h.2.2 (by simp))]
  rw [if_neg (fun h => by exact absurd h.2.2 (by simp))]
  show bracketBranch (pre ++ '[' :: (mid ++ ']' :: post)) pre.length
    (pre.length + 1 + mid.length) (idxOfLast ':' (pre ++ '[' :: (mid ++ ']' :: post))) =
    if scratchLen ≤ mid.length then .error .invalidFormat
    else .ok (AF_INET6, mid, none)
  unfold bracketBranch
  rw [if_neg (by omega)]
  rw [show pre.length + 1 + mid.length - pre.length - 1 = mid.length from by omega]
  rw [haddr]
  have hport : bracketPortText (pre ++ '[' :: (mid ++ ']' :: post))
      (pre.length + 1 + mid.length) (idxOfLast ':' (pre ++ '[' :: (mid ++ ']' :: post))) =
      none := by
    cases hlc : idxOfLast ':' (pre ++ '[' :: (mid ++ ']' :: post)) with
    | none => rfl
    | some lc =>
      rw [bracketPortText, if_neg (hlastle lc hlc)]
  rw [hport]

theorem splitAddrPort_case4b {pre mid q r : List Char} (h1 : '[' ∉ pre)
    (h3 : ']' ∉ q ++ ':' :: r) (h4 : ':' ∉ r) :
    splitAddrPort (pre ++ '[' :: (mid ++ ']' :: (q ++ ':' :: r))) =
      if scratchLen ≤ mid.length then .error .invalidFormat
      else .ok (AF_INET6, mid, some r) := by
  have hopen : idxOfFirst '[' (pre ++ '[' :: (mid ++ ']' :: (q ++ ':' :: r))) =
      some pre.length := idxOfFirst_append h1
  have hclose : idxOfLast ']' (pre ++ '[' :: (mid ++ ']' :: (q ++ ':' :: r))) =
      some (pre.length + 1 + mid.length) := by
    have heq : pre ++ '[' :: (mid ++ ']' :: (q ++ ':' :: r)) =
        (pre ++ '[' :: mid) ++ ']' :: (q ++ ':' :: r) := by simp
    rw [heq, idxOfLast_append h3]
    simp only [List.length_append, List.length_cons]
    congr 1
    omega
  have hlast : idxOfLast ':' (pre ++ '[' :: (mid ++ ']' :: (q ++ ':' :: r))) =
      some (pre.length + 1 + mid.length + 1 + q.length) := by
    have heq : pre ++ '[' :: (mid ++ ']' :: (q ++ ':' :: r)) =
        (pre ++ '[' :: mid ++ ']' :: q) ++ ':' :: r := by simp
    rw [heq, idxOfLast_append h4]
    simp only [List.length_append, List.length_cons]
    congr 1
    omega
  have hdropport : (pre ++ '[' :: (mid ++ ']' :: (q ++ ':' :: r))).drop
      (pre.length + 1 + mid.length + 1 + q.length + 1) = r := by
    have heq : pre ++ '[' :: (mid ++ ']' :: (q ++ ':' :: r)) =
        (pre ++ '[' :: mid ++ ']' :: q ++ [':']) ++ r := by simp
    rw [heq, show pre.length + 1 + mid.length + 1 + q.length + 1 =
      (pre ++ '[' :: mid ++ ']' :: q ++ [':']).length from by simp; omega, List.drop_left]
  have haddr : ((pre ++ '[' :: (mid ++ ']' :: (q ++ ':' :: r))).drop
      (pre.length + 1)).take mid.length = mid := by
    have heq : pre ++ '[' :: (mid ++ ']' :: (q ++ ':' :: r)) =
        (pre ++ ['[']) ++ (mid ++ ']' :: (q ++ ':' :: r)) := by simp
    rw [heq, show pre.length + 1 = (pre ++ ['[']).length from by simp, List.drop_left,
      List.take_left]
  unfold splitAddrPort
  rw [hopen, hclose, hlast]
  rw [if_neg (by simp)]
  rw [if_neg (fun h => by exact absurd h.2 (by simp))]
  rw [if_neg (fun h => by exact absurd h.2.2 (by simp))]
  rw [if_neg (fun h => by exact absurd h.2.2 (by simp))]
  show bracketBranch (pre ++ '[' :: (mid ++ ']' :: (q ++ ':' :: r))) pre.length
    (pre.length + 1 + mid.length) (some (pre.length + 1 + mid.length + 1 + q.length)) =
    if scratchLen ≤ mid.length then .error .invalidFormat
    else .ok (AF_INET6, mid, some r)
  unfold bracketBranch
  rw [if_neg (by omega)]
  rw [show pre.length + 1 + mid.length - pre.length - 1 = mid.length from by omega]
  rw [haddr]
  have hport : bracketPortText (pre ++ '[' :: (mid ++ ']' :: (q ++ ':' :: r)))
      (pre.length + 1 + mid.length) (some (pre.length + 1 + mid.length + 1 + q.length)) =
      some r := by
    rw [bracketPortText, if_pos (by omega), hdropport]
  rw [hport]

theorem splitAddrPort_mismatch {s : List Char}
    (h : ('[' ∈ s ∧ ']' ∉ s) ∨ (']' ∈ s ∧ '[' ∉ s)) :
    splitAddrPort s = .error .invalidFormat := by
  unfold splitAddrPort
  rcases h with ⟨h1, h2⟩ | ⟨h1, h2⟩
  · rw [idxOfLast_eq_none.mpr h2]
    cases hob : idxOfFirst '[' s with
    | none => exact absurd (idxOfFirst_eq_none.mp hob) (by simpa using h1)
    | some ob => rw [if_pos (by simp)]
  · rw [idxOfFirst_eq_none.mpr h2]
    cases hcb : idxOfLast ']' s with
    | none => exact absurd (idxOfLast_eq_none.mp hcb) (by simpa using h1)
    | some cb => rw [if_pos (by simp)]

theorem parseAddress_split {name : List Char} {fam : Nat} {a : List Char}
    {p : Option (List Char)} (h : splitAddrPort name = .ok (fam, a, p)) (dp : Nat) :
    parseAddress name dp = finishAddr fam a p dp := by
  unfold parseAddress
  rw [h]

theorem parseAddress_split_err {name : List Char} {e : Err}
    (h : splitAddrPort name = .error e) (dp : Nat) : parseAddress name dp = .error e := by
  unfold parseAddress
  rw [h]

theorem finishAddr_inet_defport {addrTxt : List Char} {bs : List Nat} {defport : Nat}
    (hp : inet_pton4 addrTxt = some bs) :
    finishAddr AF_INET addrTxt none defport =
      .ok ⟨AF_INET, bs, List.replicate 16 0, defport % 65536, 0⟩ := by
  unfold finishAddr
  rw [if_pos rfl, hp]
  show SockAddr.setPort ⟨AF_INET, bs, List.replicate 16 0, 0, 0⟩ defport = _
  unfold SockAddr.setPort
  rw [if_pos (Or.inl rfl)]

theorem finishAddr_inet_port {addrTxt t : List Char} {bs : List Nat} {v defport : Nat}
    (hp : inet_pton4 addrTxt = some bs) (ht : parseTo_u64 t = some v) :
    finishAddr AF_INET addrTxt (some t) defport =
      .ok ⟨AF_INET, bs, List.replicate 16 0, v % 65536, 0⟩ := by
  unfold finishAddr
  rw [if_pos rfl, hp]
  show (match parseTo_u64 t with
    | none => Res.error Err.invalidFormat
    | some v => SockAddr.setPort ⟨AF_INET, bs, List.replicate 16 0, 0, 0⟩ v) = _
  rw [ht]
  show SockAddr.setPort ⟨AF_INET, bs, List.replicate 16 0, 0, 0⟩ v = _
  unfold SockAddr.setPort
  rw [if_pos (Or.inl rfl)]

theorem finishAddr_inet6_defport {addrTxt : List Char} {bs : List Nat} {defport : Nat}
    (hp : inet_pton6 addrTxt = some bs) :
    finishAddr AF_INET6 addrTxt none defport =
      .ok ⟨AF_INET6, List.replicate 4 0, bs, defport % 65536, 0⟩ := by
  unfold finishAddr
  rw [if_neg (by norm_num), if_pos rfl, hp]
  show SockAddr.setPort ⟨AF_INET6, List.replicate 4 0, bs, 0, 0⟩ defport = _
  unfold SockAddr.setPort
  rw [if_pos (Or.inr rfl)]

theorem finishAddr_inet6_port {addrTxt t : List Char} {bs : List Nat} {v defport : Nat}
    (hp : inet_pton6 addrTxt = some bs) (ht : parseTo_u64 t = some v) :
    finishAddr AF_INET6 addrTxt (some t) defport =
      .ok ⟨AF_INET6, List.replicate 4 0, bs, v % 65536, 0⟩ := by
  unfold finishAddr
  rw [if_neg (by norm_num), if_pos rfl, hp]
  show (match parseTo_u64 t with
    | none => Res.error Err.invalidFormat
    | some v => SockAddr.setPort ⟨AF_INET6, List.replicate 4 0, bs, 0, 0⟩ v) = _
  rw [ht]
  show SockAddr.setPort ⟨AF_INET6, List.replicate 4 0, bs, 0, 0⟩ v = _
  unfold SockAddr.setPort
  rw [if_pos (Or.inr rfl)]

/- ### Formatter output shapes and character content -/

theorem tostring_inet (bs a6 : List Nat) (p sc : Nat) :
    SockAddr.tostring ⟨AF_INET, bs, a6, p, sc⟩ =
      inet_ntop4 bs ++ (if p ≠ 0 then ':' :: decChars p else []) := by
  unfold SockAddr.tostring
  rw [if_pos rfl]
  rfl

theorem tostring_inet6 (a4 bs : List Nat) (p sc : Nat) :
    SockAddr.tostring ⟨AF_INET6, a4, bs, p, sc⟩ =
      '[' :: (inet_ntop6 bs ++ [']']) ++ (if sc ≠ 0 then '%' :: decChars sc else []) ++
        (if p ≠ 0 then ':' :: decChars p else []) := by
  unfold SockAddr.tostring
  rw [if_neg (by norm_num), if_pos rfl]
  rfl

theorem not_mem_decChars {c : Char} {n : Nat} (h : isDecDigitC c = false) :
    c ∉ decChars n := by
  intro hm
  rw [mem_decChars_isDecDigit hm] at h
  exact absurd h (by simp)

theorem not_mem_inet_ntop4 {c : Char} {b0 b1 b2 b3 : Nat} (h : isDecDigitC c = false)
    (hd : c ≠ '.') : c ∉ inet_ntop4 [b0, b1, b2, b3] := by
  intro hm
  rcases mem_inet_ntop4 hm with h1 | h1
  · rw [h1] at h; exact absurd h (by simp)
  · exact hd h1

theorem not_mem_inet_ntop6 {c : Char} {bytes : List Nat} (h : isHexDigitC c = false)
    (hc : c ≠ ':') : c ∉ inet_ntop6 bytes := by
  intro hm
  rcases mem_inet_ntop6 hm with h1 | h1
  · rw [h1] at h; exact absurd h (by simp)
  · exact hc h1

theorem list_len4 {α : Type} {l : List α} (h : l.length = 4) :
    ∃ a b c d, l = [a, b, c, d] := by
  match l, h with
  | [a, b, c, d], _ => exact ⟨a, b, c, d, rfl⟩

theorem not_mem_append_cons {c x : Char} {l r : List Char} (h1 : c ∉ l) (h2 : c ≠ x)
    (h3 : c ∉ r) : c ∉ l ++ x :: r := by
  intro hm
  rcases List.mem_append.mp hm with h | h
  · exact h1 h
  · rcases List.mem_cons.mp h with h | h
    · exact h2 h
    · exact h3 h

theorem tostring_inet_of {a : SockAddr} (h : a.family = AF_INET) :
    a.tostring = inet_ntop4 a.addr4 ++ (if a.port ≠ 0 then ':' :: decChars a.port else []) := by
  unfold SockAddr.tostring
  rw [h, if_pos rfl]
  rfl

theorem tostring_inet6_of {a : SockAddr} (h : a.family = AF_INET6) :
    a.tostring = '[' :: (inet_ntop6 a.addr6 ++ [']']) ++
      (if a.scope ≠ 0 then '%' :: decChars a.scope else []) ++
      (if a.port ≠ 0 then ':' :: decChars a.port else []) := by
  unfold SockAddr.tostring
  rw [h, if_neg (by norm_num), if_pos rfl]
  rfl

theorem roundtrip_tostring (a : SockAddr) (p : Nat) (hwf : a.wf)
    (hfam : a.family = AF_INET ∨ a.family = AF_INET6) (hsc : a.scope = 0)
    (hp : a.port ≠ 0 ∨ p % 65536 = 0) :
    ∃ w, parseAddress a.tostring p = .ok w ∧ w.tostring = a.tostring := by
  obtain ⟨h4len, h4lt, h6len, h6lt, hptlt⟩ := hwf
  rcases hfam with hfam | hfam
  · obtain ⟨b0, b1, b2, b3, hbs⟩ := list_len4 h4len
    have hb0 : b0 < 256 := h4lt b0 (by rw [hbs]; simp)
    have hb1 : b1 < 256 := h4lt b1 (by rw [hbs]; simp)
    have hb2 : b2 < 256 := h4lt b2 (by rw [hbs]; simp)
    have hb3 : b3 < 256 := h4lt b3 (by rw [hbs]; simp)
    have hpton : inet_pton4 (inet_ntop4 a.addr4) = some a.addr4 := by
      rw [hbs]; exact inet_pton4_inet_ntop4 hb0 hb1 hb2 hb3
    have hcolon : ':' ∉ inet_ntop4 a.addr4 := by
      rw [hbs]; exact not_mem_inet_ntop4 (by decide) (by decide)
    have hlb : '[' ∉ inet_ntop4 a.addr4 := by
      rw [hbs]; exact not_mem_inet_ntop4 (by decide) (by decide)
    have hrb : ']' ∉ inet_ntop4 a.addr4 := by
      rw [hbs]; exact not_mem_inet_ntop4 (by decide) (by decide)
    have hlen : (inet_ntop4 a.addr4).length ≤ 16 := by
      rw [hbs]; exact inet_ntop4_length_le hb0 hb1 hb2 hb3
    rw [tostring_inet_of hfam]
    by_cases hpt : a.port = 0
    · have hp0 : p % 65536 = 0 := hp.resolve_left (by simp [hpt])
      rw [if_neg (by simp [hpt]), List.append_nil]
      have hsplit := splitAddrPort_case1 hcolon hlb hrb
      rw [parseAddress_split hsplit p, finishAddr_inet_defport hpton]
      refine ⟨_, rfl, ?_⟩
      rw [tostring_inet, hp0]
      simp
    · rw [if_pos hpt]
      have hsplit := @splitAddrPort_case2 (inet_ntop4 a.addr4) (decChars a.port) hcolon
        (not_mem_decChars (by decide))
        (not_mem_append_cons hlb (by decide) (not_mem_decChars (by decide)))
        (not_mem_append_cons hrb (by decide) (not_mem_decChars (by decide)))
      rw [if_neg (by simp only [scratchLen]; omega)] at hsplit
      rw [parseAddress_split hsplit p,
        finishAddr_inet_port hpton (parseTo_u64_decChars (Nat.pos_of_ne_zero hpt) (by omega))]
      refine ⟨_, rfl, ?_⟩
      rw [tostring_inet, Nat.mod_eq_of_lt hptlt, if_pos hpt]
  · have hpton : inet_pton6 (inet_ntop6 a.addr6) = some a.addr6 :=
      inet_pton6_inet_ntop6 h6len h6lt
    have hlen : (inet_ntop6 a.addr6).length ≤ 42 := inet_ntop6_length_le h6len h6lt
    have hrb6 : ']' ∉ inet_ntop6 a.addr6 := not_mem_inet_ntop6 (by decide) (by decide)
    rw [tostring_inet6_of hfam, if_neg (by simp [hsc])]
    by_cases hpt : a.port = 0
    · have hp0 : p % 65536 = 0 := hp.resolve_left (by simp [hpt])
      rw [if_neg (by simp [hpt]), List.append_nil, List.append_nil]
      have hform : '[' :: (inet_ntop6 a.addr6 ++ [']']) =
          [] ++ '[' :: (inet_ntop6 a.addr6 ++ ']' :: ([] : List Char)) := by simp
      rw [hform]
      have hsplit := @splitAddrPort_case4a [] (inet_ntop6 a.addr6) []
        (by simp) (by simp) (by simp)
      rw [if_neg (by simp only [scratchLen]; omega)] at hsplit
      rw [parseAddress_split hsplit p, finishAddr_inet6_defport hpton]
      refine ⟨_, rfl, ?_⟩
      rw [tostring_inet6, hp0]
      simp
    · rw [if_pos hpt, List.append_nil]
      have hform : '[' :: (inet_ntop6 a.addr6 ++ [']']) ++ ':' :: decChars a.port =
          [] ++ '[' :: (inet_ntop6 a.addr6 ++ ']' :: ([] ++ ':' :: decChars a.port)) := by
        simp
      rw [hform]
      have hsplit := @splitAddrPort_case4b [] (inet_ntop6 a.addr6) [] (decChars a.port)
        (by simp)
        (not_mem_append_cons (by simp) (by decide) (not_mem_decChars (by decide)))
        (not_mem_decChars (by decide))
      rw [if_neg (by simp only [scratchLen]; omega)] at hsplit
      rw [parseAddress_split hsplit p,
        finishAddr_inet6_port hpton (parseTo_u64_decChars (Nat.pos_of_ne_zero hpt) (by omega))]
      refine ⟨_, rfl, ?_⟩
      rw [tostring_inet6, Nat.mod_eq_of_lt hptlt]
      simp [hpt]

/- ### The claims -/

/-- C1 (amended): when the disambiguation stage extracts port text that the
strict integer parser accepts with value `v` (any magnitude below 2^64) and
the address text converts, `parseAddress` does not reject an out-of-range
port: it succeeds and stores `v` truncated to 16 bits (`v % 2^16`), the
conversion of `parseTo<uint64_t>`'s result to `setPort`'s `unsigned short`
parameter.  In particular `parseAddress("1.2.3.4:99999", 0)` succeeds with
port `99999 % 65536 = 34463`. -/
theorem C1_port_truncated (name : List Char) (dp fam : Nat) (a t : List Char)
    (v : Nat) (bs : List Nat)
    (hsplit : splitAddrPort name = .ok (fam, a, some t))
    (hfam : (fam = AF_INET ∧ inet_pton4 a = some bs) ∨
            (fam = AF_INET6 ∧ inet_pton6 a = some bs))
    (ht : parseTo_u64 t = some v) :
    ∃ w, parseAddress name dp = .ok w ∧ w.port = v % 65536 := by
  rcases hfam with ⟨hf, hp⟩ | ⟨hf, hp⟩
  · subst hf
    rw [parseAddress_split hsplit dp, finishAddr_inet_port hp ht]
    exact ⟨_, rfl, rfl⟩
  · subst hf
    rw [parseAddress_split hsplit dp, finishAddr_inet6_port hp ht]
    exact ⟨_, rfl, rfl⟩

/-- Witness for C1 at the concrete input of the claim. -/
theorem C1_witness :
    ∃ w, parseAddress ("1.2.3.4:99999".data) 0 = .ok w ∧ w.port = 99999 % 65536 :=
  C1_port_truncated ("1.2.3.4:99999".data) 0 AF_INET ("1.2.3.4".data) ("99999".data)
    99999 [1, 2, 3, 4] (by decide) (Or.inl ⟨rfl, by decide⟩) (by decide)

/-- Counterexample to C1 as stated: `parseAddress("1.2.3.4:99999", 0)` does
not fail with `InvalidFormat` — the port is truncated, not rejected. -/
theorem C1_counterexample :
    parseAddress ("1.2.3.4:99999".data) 0 ≠ .error Err.invalidFormat := by
  decide

/-- C2: the disambiguation stage of `parseAddress` maps inputs exactly by
colon count and brackets — (1) no colon, no bracket: the whole string is the
IPv4 literal, no port text; (2) exactly one colon, no bracket: IPv4 literal
before the colon, port text after it (subject to the scratch-buffer length
guard, shown explicitly); (3) more than one colon, no bracket: the whole
string is the IPv6 literal, no port text; (4) a `[`…`]` pair: the IPv6
literal is the bracket contents (first `[` to last `]`), with port text
after the last colon when a colon follows `]`, and no port text otherwise. -/
theorem C2_disambiguation :
    (∀ s : List Char, ':' ∉ s → '[' ∉ s → ']' ∉ s →
      splitAddrPort s = .ok (AF_INET, s, none)) ∧
    (∀ a b : List Char, ':' ∉ a → ':' ∉ b →
      '[' ∉ a ++ ':' :: b → ']' ∉ a ++ ':' :: b →
      splitAddrPort (a ++ ':' :: b) =
        if scratchLen ≤ a.length then .error .invalidFormat
        else .ok (AF_INET, a, some b)) ∧
    (∀ a m b : List Char, ':' ∉ a → ':' ∉ b →
      '[' ∉ a ++ ':' :: (m ++ ':' :: b) → ']' ∉ a ++ ':' :: (m ++ ':' :: b) →
      splitAddrPort (a ++ ':' :: (m ++ ':' :: b)) =
        .ok (AF_INET6, a ++ ':' :: (m ++ ':' :: b), none)) ∧
    (∀ pre mid post : List Char, '[' ∉ pre → ']' ∉ post → ':' ∉ post →
      splitAddrPort (pre ++ '[' :: (mid ++ ']' :: post)) =
        if scratchLen ≤ mid.length then .error .invalidFormat
        else .ok (AF_INET6, mid, none)) ∧
    (∀ pre mid q r : List Char, '[' ∉ pre → ']' ∉ q ++ ':' :: r → ':' ∉ r →
      splitAddrPort (pre ++ '[' :: (mid ++ ']' :: (q ++ ':' :: r))) =
        if scratchLen ≤ mid.length then .error .invalidFormat
        else .ok (AF_INET6, mid, some r)) :=
  ⟨fun _ h1 h2 h3 => splitAddrPort_case1 h1 h2 h3,
   fun _ _ h1 h2 h3 h4 => splitAddrPort_case2 h1 h2 h3 h4,
   fun _ _ _ h1 h2 h3 h4 => splitAddrPort_case3 h1 h2 h3 h4,
   fun _ _ _ h1 h2 h3 => splitAddrPort_case4a h1 h2 h3,
   fun _ _ _ _ h1 h2 h3 => splitAddrPort_case4b h1 h2 h3⟩

/-- Witness for C2 on concrete inputs of each shape. -/
theorem C2_witness :
    splitAddrPort ("1.2.3.4".data) = .ok (AF_INET, "1.2.3.4".data, none) ∧
    splitAddrPort ("1.2.3.4".data ++ ':' :: "80".data) =
      .ok (AF_INET, "1.2.3.4".data, some ("80".data)) ∧
    splitAddrPort ([] ++ ':' :: ([] ++ ':' :: "1".data)) =
      .ok (AF_INET6, [] ++ ':' :: ([] ++ ':' :: "1".data), none) ∧
    splitAddrPort ([] ++ '[' :: ("::1".data ++ ']' :: [])) =
      .ok (AF_INET6, "::1".data, none) ∧
    splitAddrPort ([] ++ '[' :: ("::1".data ++ ']' :: ([] ++ ':' :: "80".data))) =
      .ok (AF_INET6, "::1".data, some ("80".data)) := by
  refine ⟨?_, ?_, ?_, ?_, ?_⟩
  · exact C2_disambiguation.1 ("1.2.3.4".data) (by decide) (by decide) (by decide)
  · exact C2_disambiguation.2.1 ("1.2.3.4".data) ("80".data)
      (by decide) (by decide) (by decide) (by decide)
  · exact C2_disambiguation.2.2.1 [] [] ("1".data) (by decide) (by decide)
      (by decide) (by decide)
  · exact C2_disambiguation.2.2.2.1 [] ("::1".data) [] (by decide) (by decide) (by decide)
  · exact C2_disambiguation.2.2.2.2 [] ("::1".data) [] ("80".data)
      (by decide) (by decide) (by decide)

/-- C3: exactly one of `[` / `]` present without its partner makes
`parseAddress` fail with `InvalidFormat`, whatever the colon count. -/
theorem C3_unmatched_bracket : ∀ (s : List Char) (dp : Nat),
    (('[' ∈ s ∧ ']' ∉ s) ∨ (']' ∈ s ∧ '[' ∉ s)) →
    parseAddress s dp = .error .invalidFormat :=
  fun _ dp h => parseAddress_split_err (splitAddrPort_mismatch h) dp

/-- Witness for C3 at the claim's concrete inputs `"[::1"` and `"::1]"`. -/
theorem C3_witness :
    parseAddress ("[::1".data) 0 = .error .invalidFormat ∧
    parseAddress ("::1]".data) 0 = .error .invalidFormat :=
  ⟨C3_unmatched_bracket ("[::1".data) 0 (by decide),
   C3_unmatched_bracket ("::1]".data) 0 (by decide)⟩

/-- C4 (amended): the text round trip
`format(parseAddress(format(v), p)) = format(v)` holds for every
well-formed value of family IPv4 or IPv6 whose scope id is 0, provided the
value has a non-zero port or the default port is zero (mod 2^16).  A
non-zero scope id is lost (parsing defines no scope syntax), an
`Unspecified` value formats to `<>` which does not re-parse, and a
zero-port value re-parsed under a non-zero default gains that port. -/
theorem C4_roundtrip (a : SockAddr) (p : Nat) (hwf : a.wf)
    (hfam : a.family = AF_INET ∨ a.family = AF_INET6) (hsc : a.scope = 0)
    (hp : a.port ≠ 0 ∨ p % 65536 = 0) :
    ∃ w, parseAddress a.tostring p = .ok w ∧ w.tostring = a.tostring :=
  roundtrip_tostring a p hwf hfam hsc hp

/-- Witness for C4 at a concrete IPv4 value with non-zero port and a
different default port. -/
theorem C4_witness :
    ∃ w, parseAddress
        ((⟨AF_INET, [127, 0, 0, 1], List.replicate 16 0, 5075, 0⟩ : SockAddr).tostring) 3 =
        .ok w ∧
      w.tostring = (⟨AF_INET, [127, 0, 0, 1], List.replicate 16 0, 5075, 0⟩ :
        SockAddr).tostring :=
  C4_roundtrip ⟨AF_INET, [127, 0, 0, 1], List.replicate 16 0, 5075, 0⟩ 3
    ⟨rfl, by decide, by decide, by decide, by decide⟩ (Or.inl rfl) rfl (Or.inl (by decide))

/-- Counterexample to C4 as stated: the IPv6 loopback with scope id 1 and
port 0 formats to `[::1]%1`, which re-parses (the scope is dropped) to a
value formatting to `[::1]`. -/
theorem C4_counterexample :
    ∃ w, parseAddress
        ((⟨AF_INET6, List.replicate 4 0, List.replicate 15 0 ++ [1], 0, 1⟩ :
          SockAddr).tostring) 0 = .ok w ∧
      w.tostring ≠ (⟨AF_INET6, List.replicate 4 0, List.replicate 15 0 ++ [1], 0, 1⟩ :
        SockAddr).tostring :=
  ⟨⟨AF_INET6, List.replicate 4 0, List.replicate 15 0 ++ [1], 0, 0⟩, by decide, by decide⟩

/-- C5: `map4to6` of an IPv4 value is the IPv6 value whose 16 address bytes
are `0,0,0,0,0,0,0,0,0,0,0xff,0xff` followed by the original 4 address
bytes, with the port preserved and scope 0; of an IPv6 value it is that
value unchanged; of an `Unspecified` value it fails with `InvalidFamily`. -/
theorem C5_map4to6 : ∀ a : SockAddr, a.addr4.length = 4 →
    (a.family = AF_INET → a.map4to6 =
      .ok ⟨AF_INET6, List.replicate 4 0,
           [0, 0, 0, 0, 0, 0, 0, 0, 0, 0, 255, 255] ++ a.addr4, a.port, 0⟩) ∧
    (a.family = AF_INET6 → a.map4to6 = .ok a) ∧
    (a.family = AF_UNSPEC → a.map4to6 = .error .invalidFamily) := by
  intro a _
  refine ⟨?_, ?_, ?_⟩
  · intro hf
    unfold SockAddr.map4to6
    rw [hf, if_pos rfl]
    simp [List.replicate]
  · intro hf
    unfold SockAddr.map4to6
    rw [hf, if_neg (by norm_num), if_pos rfl]
  · intro hf
    unfold SockAddr.map4to6
    rw [hf, if_neg (by norm_num), if_neg (by norm_num)]

/-- Witness for C5 at concrete values of each family. -/
theorem C5_witness :
    (⟨AF_INET, [1, 2, 3, 4], List.replicate 16 0, 80, 0⟩ : SockAddr).map4to6 =
      .ok ⟨AF_INET6, List.replicate 4 0,
           [0, 0, 0, 0, 0, 0, 0, 0, 0, 0, 255, 255] ++ [1, 2, 3, 4], 80, 0⟩ ∧
    (⟨AF_INET6, List.replicate 4 0, List.replicate 15 0 ++ [1], 7, 5⟩ : SockAddr).map4to6 =
      .ok ⟨AF_INET6, List.replicate 4 0, List.replicate 15 0 ++ [1], 7, 5⟩ ∧
    SockAddr.unspec.map4to6 = .error .invalidFamily :=
  ⟨(C5_map4to6 ⟨AF_INET, [1, 2, 3, 4], List.replicate 16 0, 80, 0⟩ rfl).1 rfl,
   (C5_map4to6 ⟨AF_INET6, List.replicate 4 0, List.replicate 15 0 ++ [1], 7, 5⟩
     (by decide)).2.1 rfl,
   (C5_map4to6 SockAddr.unspec (by decide)).2.2 rfl⟩

/-- C6: for an IPv4 value holding 127.0.0.1 (any port), `isLoopback` is
true, but `isLoopback` of its `map4to6` image is false: the mapped form
`::ffff:127.0.0.1` is not the IPv6 loopback `::1`. -/
theorem C6_mapped_loopback : ∀ a : SockAddr, a.family = AF_INET →
    a.addr4 = [127, 0, 0, 1] →
    a.isLO = true ∧ ∃ m, a.map4to6 = .ok m ∧ m.isLO = false := by
  intro a hf h4
  refine ⟨?_, ⟨AF_INET6, List.replicate 4 0,
    List.replicate 10 0 ++ [255, 255] ++ a.addr4, a.port, 0⟩, ?_, ?_⟩
  · unfold SockAddr.isLO
    rw [hf, if_pos rfl, h4]
    decide
  · unfold SockAddr.map4to6
    rw [hf, if_pos rfl]
  · unfold SockAddr.isLO
    rw [h4]
    rfl

/-- Witness for C6 at 127.0.0.1 port 9000 (the spec's own example). -/
theorem C6_witness :
    (⟨AF_INET, [127, 0, 0, 1], List.replicate 16 0, 9000, 0⟩ : SockAddr).isLO = true ∧
    ∃ m, (⟨AF_INET, [127, 0, 0, 1], List.replicate 16 0, 9000, 0⟩ : SockAddr).map4to6 =
      .ok m ∧ m.isLO = false :=
  C6_mapped_loopback ⟨AF_INET, [127, 0, 0, 1], List.replicate 16 0, 9000, 0⟩ rfl rfl

/-- C7: formatting is total (a total function by construction) and produces
exactly what the specification words say, for every value: dotted quad plus
optional `:port` for IPv4; bracketed colon-hex plus optional `%scope` and
`:port` (outside the brackets) for IPv6; `<>` for `Unspecified`; `<???>`
for any other family tag. -/
theorem C7_format_shape : ∀ a : SockAddr, a.tostring = tostringSpec a := by
  intro a
  unfold SockAddr.tostring tostringSpec
  by_cases h2 : a.family = AF_INET
  · rw [if_pos h2, if_pos h2]
    rfl
  · rw [if_neg h2, if_neg h2]
    by_cases h10 : a.family = AF_INET6
    · rw [if_pos h10, if_pos h10]
      show ('[' :: (inet_ntop6 a.addr6 ++ [']'])) ++ _ ++ _ = _
      simp [List.append_assoc]
    · rw [if_neg h10, if_neg h10]

/-- C8: the code's handling of a failing binary-to-text converter.  The
`AF_INET6` branch substitutes exactly `<???>`, but the `AF_INET` branch
streams the stale buffer contents after `<???>` because `strm<<buf` sits
outside the `if`/`else` (util.cpp:527) — with a correct converter the
branch is unreachable, but its code contradicts the claim. -/
theorem C8_failure_substitution :
    (∀ (buf0 : List Char) (port : Nat), streamInet none buf0 port =
      "<???>".data ++ buf0 ++ (if port ≠ 0 then ':' :: decChars port else [])) ∧
    streamInet none ['#'] 0 ≠ "<???>".data ∧
    streamInet6 none 0 0 = "<???>".data := by
  refine ⟨fun buf0 port => ?_, by decide, rfl⟩
  unfold streamInet
  simp [List.append_assoc]

/-- C9: `any` and `loopback` for family IPv4 or IPv6 and a 16-bit port
return values satisfying `isAny` (respectively `isLoopback`) carrying that
port; every other family argument — `AF_UNSPEC` included — fails with
`UnsupportedFamily`. -/
theorem C9_any_loopback : ∀ af p : Nat, p < 65536 →
    ((af = AF_INET ∨ af = AF_INET6) →
      ∃ a l, SockAddr.any af p = .ok a ∧ a.isAny = true ∧ a.getPort = p ∧
        SockAddr.loopback af p = .ok l ∧ l.isLO = true ∧ l.getPort = p) ∧
    (af ≠ AF_INET → af ≠ AF_INET6 →
      SockAddr.any af p = .error .unsupportedFamily ∧
      SockAddr.loopback af p = .error .unsupportedFamily) := by
  intro af p hp
  constructor
  · intro hf
    rcases hf with hf | hf
    · subst hf
      refine ⟨⟨AF_INET, [0, 0, 0, 0], List.replicate 16 0, p % 65536, 0⟩,
        ⟨AF_INET, [127, 0, 0, 1], List.replicate 16 0, p % 65536, 0⟩,
        rfl, rfl, ?_, rfl, rfl, ?_⟩
      · unfold SockAddr.getPort
        rw [if_pos (Or.inl rfl)]
        exact Nat.mod_eq_of_lt hp
      · unfold SockAddr.getPort
        rw [if_pos (Or.inl rfl)]
        exact Nat.mod_eq_of_lt hp
    · subst hf
      refine ⟨⟨AF_INET6, List.replicate 4 0, List.replicate 16 0, p % 65536, 0⟩,
        ⟨AF_INET6, List.replicate 4 0, List.replicate 15 0 ++ [1], p % 65536, 0⟩,
        rfl, rfl, ?_, rfl, rfl, ?_⟩
      · unfold SockAddr.getPort
        rw [if_pos (Or.inr rfl)]
        exact Nat.mod_eq_of_lt hp
      · unfold SockAddr.getPort
        rw [if_pos (Or.inr rfl)]
        exact Nat.mod_eq_of_lt hp
  · intro h2 h10
    by_cases h0 : af = AF_UNSPEC
    · subst h0
      exact ⟨rfl, rfl⟩
    · constructor
      · unfold SockAddr.any SockAddr.ofFamily
        rw [if_neg (by tauto)]
      · unfold SockAddr.loopback SockAddr.ofFamily
        rw [if_neg (by tauto)]

/-- Witness for C9: the spec's examples `any(IPv4, 0)`, `loopback(IPv6, 0)`
and the rejected family 99. -/
theorem C9_witness :
    (∃ a l, SockAddr.any AF_INET 0 = .ok a ∧ a.isAny = true ∧ a.getPort = 0 ∧
      SockAddr.loopback AF_INET 0 = .ok l ∧ l.isLO = true ∧ l.getPort = 0) ∧
    (∃ a l, SockAddr.any AF_INET6 0 = .ok a ∧ a.isAny = true ∧ a.getPort = 0 ∧
      SockAddr.loopback AF_INET6 0 = .ok l ∧ l.isLO = true ∧ l.getPort = 0) ∧
    SockAddr.any 99 0 = .error .unsupportedFamily ∧
    SockAddr.loopback 99 0 = .error .unsupportedFamily :=
  ⟨(C9_any_loopback AF_INET 0 (by decide)).1 (Or.inl rfl),
   (C9_any_loopback AF_INET6 0 (by decide)).1 (Or.inr rfl),
   (C9_any_loopback 99 0 (by decide)).2 (by decide) (by decide)⟩

/-- C10: with a matched `[`…`]` pair whose contents form a valid IPv6
literal (fitting the scratch buffer) and no colon after the closing
bracket, `parseAddress` succeeds on the bracket contents alone: characters
before `[` and after `]` are silently ignored, and the default port is
used.  In particular `"[::1]garbage"` parses to the IPv6 loopback. -/
theorem C10_bracket_contents_only : ∀ (pre mid post : List Char) (dp : Nat)
    (bs : List Nat), '[' ∉ pre → ']' ∉ post → ':' ∉ post →
    mid.length < scratchLen → inet_pton6 mid = some bs →
    parseAddress (pre ++ '[' :: (mid ++ ']' :: post)) dp =
      .ok ⟨AF_INET6, List.replicate 4 0, bs, dp % 65536, 0⟩ := by
  intro pre mid post dp bs h1 h3 h4 hlen hpton
  have hsplit := @splitAddrPort_case4a pre mid post h1 h3 h4
  rw [if_neg (by omega)] at hsplit
  rw [parseAddress_split hsplit dp, finishAddr_inet6_defport hpton]

/-- Witness for C10 at the concrete input `"[::1]garbage"`. -/
theorem C10_witness :
    parseAddress ([] ++ '[' :: ("::1".data ++ ']' :: "garbage".data)) 5 =
      .ok ⟨AF_INET6, List.replicate 4 0, List.replicate 15 0 ++ [1], 5 % 65536, 0⟩ :=
  C10_bracket_contents_only [] ("::1".data) ("garbage".data) 5
    (List.replicate 15 0 ++ [1]) (by decide) (by decide) (by decide) (by decide) (by decide)
